import Mathlib

/-!
Shallow embedding of the `onlyerror` derive macro (src/lib.rs, src/parser.rs).

The parser (`Variant.parse`, `Error.parse`) is modelled at the level after
token-tree decomposition: a variant input is its attribute list, its name and
its raw field list (positional for tuple variants, named for struct variants);
token-level failures (unexpected tokens, bad delimiters) are below this level
and are not modelled.  Strings are Lean `String`s, with the string operations
used by the source (`str::replace`, `str::split`) re-implemented over
`List Char` so that they evaluate by kernel reduction.  `HashMap<Rc<str>, _>`
is modelled as an association list with unique keys (`hashInsert` keeps keys
unique), `Rc<str>` as `String`, and a `proc_macro` span as a `Nat` tag.
-/

namespace Onlyerror

/-- Span of a token, abstracted to a numeric tag (`proc_macro::Span`). -/
abbrev Span := Nat

/-- Diagnostic produced by `myn::utils::spanned_error(msg, span)`: the error
token stream carries a human-readable message and a source span. -/
structure Diagnostic where
  msg : String
  span : Span
deriving DecidableEq, Repr

/-- Identifier with its span (`proc_macro::Ident`). -/
structure Ident where
  name : String
  span : Span
deriving DecidableEq, Repr

/-- Attribute as the parser consumes it (`myn` attribute): its name, its span
(the span of the attribute's name token), and, when the attribute carries a
parenthesized string literal (`#[error("...")]`) or is a doc comment
(`#[doc = "..."]`), that literal's content.  `str = none` models an attribute
whose tree has no well-formed parenthesized string literal, in which case the
`.and_then(|t| t.expect_group(..).ok())` chain in `Variant::parse` falls
through to the doc-comment branch. -/
structure Attribute where
  name : String
  str : Option String
  span : Span
deriving DecidableEq, Repr

/-! ## String operations used by the source -/

/-- Core of `str::replace`: replace every non-overlapping occurrence of `pat`
(non-empty in all uses by the source) in the character list, left to right.
The `fuel` argument makes the recursion structural; it is initialized to the
length of the list, which each step decreases by at least one. -/
def replaceFuel (pat repl : List Char) : Nat → List Char → List Char
  | _, [] => []
  | 0, s => s
  | fuel + 1, c :: rest =>
    if pat ≠ [] ∧ pat.isPrefixOf (c :: rest) then
      repl ++ replaceFuel pat repl fuel ((c :: rest).drop pat.length)
    else
      c :: replaceFuel pat repl fuel rest

/-- Model of Rust `str::replace` on `String`s (for non-empty patterns). -/
def strReplace (s pat repl : String) : String :=
  ⟨replaceFuel pat.data repl.data s.data.length s.data⟩

/-- Model of Rust `str::split(sep)` on a character list: the list of maximal
segments between occurrences of `sep`.  Like the Rust iterator it yields one
(possibly empty) segment more than the number of separators. -/
def splitOnChar (sep : Char) : List Char → List (List Char)
  | [] => [[]]
  | c :: rest =>
    if c = sep then
      [] :: splitOnChar sep rest
    else
      match splitOnChar sep rest with
      | [] => [[c]]
      | seg :: segs => (c :: seg) :: segs

/-- Extraction of display-referenced field names from a template
(`parser.rs`, `Variant::parse`): `display.split('{').skip(1)` then for each
segment `s.split('}').next()` then `s.split(':').next()`.  The first element
of a Rust `split` is the longest prefix free of the separator, and it always
exists, so the two `filter_map`s keep every segment. -/
def displayFieldsOf (display : String) : List String :=
  ((splitOnChar '{' display.data).drop 1).map
    (fun seg => ⟨(seg.takeWhile (· ≠ '}')).takeWhile (· ≠ ':')⟩)

/-! ## Data model (`parser.rs`) -/

/-- Shape of one variant (`parser.rs` `VariantType`). -/
inductive VariantType
  | Unit
  | Tuple
  | Struct
deriving DecidableEq, Repr

/-- Raw field as parsed (`parser.rs` `Field`): its attributes and the type
path of the field. -/
structure Field where
  attrs : List Attribute
  path : String
deriving DecidableEq, Repr

/-- Resolved cause marker of a variant (`parser.rs` `ErrorSource`): `From`
records a `#[from]` marker, `Source` a `#[source]` marker, each carrying the
key of the marked field. -/
inductive ErrorSource
  | None
  | From (key : String)
  | Source (key : String)
deriving DecidableEq, Repr

/-- `ErrorSource::as_ref`: the key of the marked field, if any. -/
def ErrorSource.as_ref : ErrorSource → Option String
  | .None => none
  | .From name | .Source name => some name

/-- Fully parsed variant (`parser.rs` `Variant`).  The field map
(`HashMap<Rc<str>, String>` in the source) is an association list with unique
keys, in insertion order. -/
structure Variant where
  name : Ident
  ty : VariantType
  fields : List (String × String)
  display : String
  display_fields : List String
  source : ErrorSource
deriving DecidableEq, Repr

/-! ## OrderedMap (`parser.rs`) -/

/-- Insert into an association list modelling `HashMap::insert`: returns the
previous value bound to the key, if any, and the updated list.  A present key
is overwritten in place; a fresh key is appended. -/
def hashInsert (k : String) (v : α) : List (String × α) → Option α × List (String × α)
  | [] => (none, [(k, v)])
  | (k', v') :: rest =>
    if k' = k then
      (some v', (k, v) :: rest)
    else
      let r := hashInsert k v rest
      (r.1, (k', v') :: r.2)

/-- `parser.rs` `OrderedMap<T>`: a hash map plus the keys in first-insertion
order. -/
structure OrderedMap (α : Type) where
  keys : List String
  map : List (String × α)
deriving DecidableEq, Repr

/-- `OrderedMap::new`. -/
def OrderedMap.new : OrderedMap α := ⟨[], []⟩

/-- `OrderedMap::len`: the number of recorded keys. -/
def OrderedMap.len (m : OrderedMap α) : Nat := m.keys.length

/-- `OrderedMap::insert`: insert into the inner map; if the key was fresh,
record it at the end of the key list; return the previous value. -/
def OrderedMap.insert (m : OrderedMap α) (k : String) (v : α) :
    Option α × OrderedMap α :=
  let r := hashInsert k v m.map
  (r.1, ⟨if r.1.isNone then m.keys ++ [k] else m.keys, r.2⟩)

/-- Core of `OrderedMap::into_iter`: walk the recorded keys, removing each
from the inner map (`self.map.remove(&key)`).  Where the source `unwrap`s,
the model keeps the `Option` (for maps built by `insert` the value is always
present). -/
def intoIterAux : List String → List (String × α) → List (String × Option α)
  | [], _ => []
  | k :: ks, mp => (k, (mp.lookup k)) :: intoIterAux ks (mp.eraseP (fun kv => kv.1 == k))

/-- `OrderedMap::into_iter`. -/
def OrderedMap.into_iter (m : OrderedMap α) : List (String × Option α) :=
  intoIterAux m.keys m.map

/-- Key-value pairs actually yielded by `into_iter` (the `unwrap`ped view
used by `Variant::parse`). -/
def OrderedMap.pairs (m : OrderedMap α) : List (String × α) :=
  m.into_iter.filterMap (fun kv => kv.2.map (fun v => (kv.1, v)))

/-! ## Field-list parsing (`parser.rs`) -/

/-- `parse_tuple_fields`: each positional field is inserted under its
stringified index "0", "1", …. -/
def parse_tuple_fields (rawFields : List Field) : OrderedMap Field :=
  (rawFields.foldl
    (fun (acc : OrderedMap Field × Nat) field =>
      ((acc.1.insert (toString acc.2) field).2, acc.2 + 1))
    (OrderedMap.new, 0)).1

/-- `parse_struct_fields`: each named field is inserted under its name. -/
def parse_struct_fields (rawFields : List (String × Field)) : OrderedMap Field :=
  rawFields.foldl (fun acc kv => (acc.insert kv.1 kv.2).2) OrderedMap.new

/-! ## Cause-marker resolution (`Variant::parse`, "Resolve error source") -/

/-- Message of the duplicate-marker diagnostic, exactly as formatted by the
source (the backslash line continuation in the Rust literal joins the two
halves with the single space after "once."). -/
def dupMsg (name : String) : String :=
  "#[from] | #[source] can only be used once. Previously seen on field `"
    ++ name ++ "`"

/-- Message of the conversion-arity diagnostic. -/
def arityMsg : String := "#[from] can only be used with a single field"

/-- Inner loop of the error-source resolution (`for attr in attrs`): walk one
field's `from`/`source` attributes.  A marker found while `source` is already
resolved raises the duplicate diagnostic at the attribute's name span; a
`from` marker on a variant with more than one field raises the arity
diagnostic at the variant's name span. -/
def processAttrs (variantName : Ident) (numFields : Nat) (key : String) :
    List Attribute → ErrorSource → Except Diagnostic ErrorSource
  | [], source => .ok source
  | attr :: rest, source =>
    match source.as_ref with
    | some name => .error ⟨dupMsg name, attr.span⟩
    | none =>
      if attr.name = "from" then
        if numFields > 1 then
          .error ⟨arityMsg, variantName.span⟩
        else
          processAttrs variantName numFields key rest (.From key)
      else
        processAttrs variantName numFields key rest (.Source key)

/-- Filter of one field's attributes down to the cause markers
(`["from", "source"].contains(..)` in `Variant::parse`). -/
def markerAttrs (field : Field) : List Attribute :=
  field.attrs.filter (fun attr => attr.name = "from" ∨ attr.name = "source")

/-- Outer loop of the error-source resolution (`for (key, field) in
map.into_iter()`): for each field, resolve its marker attributes, then
insert the field's type path into the `fields` hash map. -/
def resolveFields (variantName : Ident) (numFields : Nat) :
    List (String × Field) → ErrorSource → List (String × String) →
    Except Diagnostic (ErrorSource × List (String × String))
  | [], source, fields => .ok (source, fields)
  | (key, field) :: rest, source, fields => do
    let source ← processAttrs variantName numFields key (markerAttrs field) source
    resolveFields variantName numFields rest source
      (hashInsert key field.path fields).2

/-- Cause-marker occurrences of a field list, flattened in scan order: the
pairs (field key, marker attribute) in the order the resolution loop meets
them. -/
def flattenMarkers (pairs : List (String × Field)) : List (String × Attribute) :=
  pairs.flatMap (fun kf => (markerAttrs kf.2).map (fun a => (kf.1, a)))

/-! ## Display-template resolution (`Variant::parse`) -/

/-- Positional-placeholder rewrite applied to an explicit `#[error]` template
of a Tuple variant (`for i in 0..fields.len()`): each `\x7bi:` becomes
`\x7bfield_i:` and each `\x7bi\x7d` becomes `\x7bfield_i\x7d`. -/
def rewriteTemplate (numFields : Nat) (s : String) : String :=
  (List.range numFields).foldl
    (fun str i =>
      strReplace
        (strReplace str ("\x7b" ++ toString i ++ ":")
          ("\x7bfield_" ++ toString i ++ ":"))
        ("\x7b" ++ toString i ++ "\x7d")
        ("\x7bfield_" ++ toString i ++ "\x7d"))
    s

/-- `myn` `get_doc_comment`: the contents of the doc-comment attributes, in
source order, which `Variant::parse` joins with `""`. -/
def get_doc_comment (attrs : List Attribute) : List String :=
  attrs.filterMap (fun attr => if attr.name = "doc" then attr.str else none)

/-- Display-template resolution: the first `#[error]` attribute carrying a
well-formed parenthesized string literal overrides the doc comments; a Tuple
variant's explicit template has its positional placeholders rewritten. -/
def resolveDisplay (attrs : List Attribute) (ty : VariantType)
    (numFields : Nat) : String :=
  match attrs.find? (fun attr => attr.name == "error") with
  | some attr =>
    match attr.str with
    | some s => if ty = .Tuple then rewriteTemplate numFields s else s
    | none => String.join (get_doc_comment attrs)
  | none => String.join (get_doc_comment attrs)

/-! ## Variant and Error parsing -/

/-- Input to `Variant::parse` after token-tree decomposition: the variant's
outer attributes, its name, and its delimited field group (none for a Unit
variant, a parenthesized positional list for Tuple, a braced named list for
Struct). -/
inductive VariantInput
  | unit (attrs : List Attribute) (name : Ident)
  | tuple (attrs : List Attribute) (name : Ident) (rawFields : List Field)
  | struct' (attrs : List Attribute) (name : Ident)
      (rawFields : List (String × Field))
deriving DecidableEq, Repr

/-- Attributes of a variant input. -/
def VariantInput.attrs : VariantInput → List Attribute
  | .unit attrs _ | .tuple attrs _ _ | .struct' attrs _ _ => attrs

/-- Name of a variant input. -/
def VariantInput.name : VariantInput → Ident
  | .unit _ name | .tuple _ name _ | .struct' _ name _ => name

/-- `Variant::parse`: resolve the error source over the ordered field map,
then the display template and its referenced fields. -/
def Variant.parse (input : VariantInput) : Except Diagnostic Variant := do
  let attrs := input.attrs
  let name := input.name
  let (ty, source, fields) ←
    match input with
    | .unit _ _ =>
      pure (VariantType.Unit, ErrorSource.None, ([] : List (String × String)))
    | .tuple _ _ rawFields => do
      let map := parse_tuple_fields rawFields
      let (source, fields) ← resolveFields name map.len map.pairs .None []
      pure (VariantType.Tuple, source, fields)
    | .struct' _ _ rawFields => do
      let map := parse_struct_fields rawFields
      let (source, fields) ← resolveFields name map.len map.pairs .None []
      pure (VariantType.Struct, source, fields)
  let display := resolveDisplay attrs ty fields.length
  let display_fields := displayFieldsOf display
  .ok { name, ty, fields, display, display_fields, source }

/-- Parsed type definition (`parser.rs` `Error`).  The `no_display` flag is
consumed by `lib.rs` (`ast.no_display`) but the parser source under `src/`
does not record it; see `parse_no_display`. -/
structure Error where
  name : Ident
  variants : List Variant
  no_display : Bool
deriving DecidableEq, Repr

/-- Modelled from the spec: the code that sets the type definition's
`no_display` flag is missing from the parser under `src/` (the generator in
`lib.rs` reads `ast.no_display`, and the derive registers the `no_display`
helper attribute, but `Error::parse` as given discards the type-level
attribute list).  Per the spec, the type definition is marked "no generated
formatting" exactly when the type-level attribute list carries the
`no_display` marker. -/
def parse_no_display (attrs : List Attribute) : Bool :=
  attrs.any (fun attr => attr.name == "no_display")

/-- `Error::parse`, at the level after token-tree decomposition: parse each
variant in order, stopping at the first failing variant. -/
def Error.parse (attrs : List Attribute) (name : Ident)
    (inputs : List VariantInput) : Except Diagnostic Error := do
  let variants ← inputs.mapM Variant.parse
  .ok { name, variants, no_display := parse_no_display attrs }

/-! ## Code generator (`lib.rs` `derive_error`)

The generator emits Rust source text by string formatting; the model records
each emitted match arm / impl as structured data carrying exactly the
information interpolated into the corresponding `format!` call, together
with an evaluation semantics for the generated match expressions. -/

/-- One arm of the generated `Error::source` match (`error_matches` in
`lib.rs`).  `unitNone` is the arm `Self::N => None,`; `tupleSome` is
`Self::N(_,…,field,…,_) => Some(field),` with `field` bound at position
`fieldIdx` of `numFields` positions; `structSome` is
`Self::N \x7b k, .. \x7d => Some(k),`. -/
inductive CauseArm
  | unitNone (variantName : String)
  | tupleSome (variantName : String) (fieldIdx : Nat) (numFields : Nat)
  | structSome (variantName : String) (fieldName : String)
deriving DecidableEq, Repr

/-- Variant name an arm's pattern is headed by. -/
def CauseArm.variantName : CauseArm → String
  | .unitNone n | .tupleSome n _ _ | .structSome n _ => n

/-- Model of `str::parse::<usize>()`: an optional leading `+` followed by at
least one decimal digit; anything else fails. -/
def parseUsize? (s : String) : Option Nat :=
  let ds := match s.data with
    | '+' :: rest => rest
    | l => l
  if ds ≠ [] ∧ ds.all Char.isDigit then
    some (ds.foldl (fun a c => a * 10 + (c.toNat - '0'.toNat)) 0)
  else
    none

/-- `usize` parse with `unwrap_or_default()`:
`index.parse().unwrap_or_default()`. -/
def parseUsize (s : String) : Nat := (parseUsize? s).getD 0

/-- Closure mapped over the variants by `error_matches` in `lib.rs`: a
variant whose source is `From` or `Source` yields its cause arm; a variant
with `ErrorSource::None` yields nothing. -/
def cause_arm? (v : Variant) : Option CauseArm :=
  match v.source with
  | .From index | .Source index =>
    some (match v.ty with
      | .Unit => .unitNone v.name.name
      | .Tuple => .tupleSome v.name.name (parseUsize index) v.fields.length
      | .Struct => .structSome v.name.name index)
  | .None => none

/-- The `error_matches` arms: one arm per variant whose source is `From` or
`Source`, in declaration order. -/
def error_matches (e : Error) : List CauseArm :=
  e.variants.filterMap cause_arm?

/-- Run-time payload of one enum value, for evaluating generated matches:
field values positionally for a tuple variant, named for a struct variant. -/
inductive Payload (α : Type)
  | unit
  | tuple (vals : List α)
  | struct' (vals : List (String × α))
deriving DecidableEq, Repr

/-- Run-time enum value: which variant, and its payload. -/
structure Instance (α : Type) where
  variantName : String
  payload : Payload α
deriving DecidableEq, Repr

/-- Pattern-match one generated cause arm against a value: `some r` when the
arm's pattern matches, where `r` is the `Option` the arm's body returns. -/
def CauseArm.tryMatch (arm : CauseArm) (inst : Instance α) :
    Option (Option α) :=
  match arm, inst.payload with
  | .unitNone n, .unit =>
    if inst.variantName = n then some none else none
  | .tupleSome n idx numFields, .tuple vals =>
    if inst.variantName = n ∧ vals.length = numFields then
      some vals[idx]?
    else none
  | .structSome n fieldName, .struct' vals =>
    if inst.variantName = n then some (vals.lookup fieldName) else none
  | _, _ => none

/-- Evaluate the generated `source` match: first matching arm wins, and the
trailing `_ => None` arm yields `none`. -/
def evalCauseAccessor (arms : List CauseArm) (inst : Instance α) : Option α :=
  match arms with
  | [] => none
  | arm :: rest =>
    match arm.tryMatch inst with
    | some r => r
    | none => evalCauseAccessor rest inst

/-- One arm of the generated `Display::fmt` match.  `unit` is
`Self::N => write!(f, DISPLAY),`; `tuple` is
`Self::N(BINDS) => write!(f, DISPLAY, ARGS),` where `BINDS` has, at each of
the variant's field positions, either the binder `field_i` (`true`) or `_`
(`false`); `struct'` is `Self::N \x7b BINDNAMES .. \x7d => write!(f, DISPLAY,
ARGS),`.  `args` records the comma-joined display-field list interpolated as
the `write!` arguments, in order. -/
inductive DisplayArm
  | unit (variantName : String) (display : String)
  | tuple (variantName : String) (binds : List Bool) (display : String)
      (args : List String)
  | struct' (variantName : String) (bindNames : List String) (display : String)
      (args : List String)
deriving DecidableEq, Repr

/-- Body of the closure mapped over the variants in `lib.rs`: a variant with
an empty display template yields `Err(name)`; otherwise the variant's display
arm. -/
def display_arm (v : Variant) : Except Ident DisplayArm :=
  if v.display = "" then
    .error v.name
  else
    .ok (match v.ty with
      | .Unit => .unit v.name.name v.display
      | .Tuple =>
        .tuple v.name.name
          ((List.range v.fields.length).map
            (fun i => v.display_fields.contains ("field_" ++ toString i)))
          v.display v.display_fields
      | .Struct => .struct' v.name.name v.display_fields v.display
          v.display_fields)

/-- The `for res in display` loop: collect the arms in order, returning the
first variant whose template is empty. -/
def collectArms : List Variant → Except Ident (List DisplayArm)
  | [] => .ok []
  | v :: rest =>
    match display_arm v with
    | .error name => .error name
    | .ok arm => (collectArms rest).map (fun arms => arm :: arms)

/-- Body of the generated `Display::fmt`: `Ok(())` when no arms were
produced (`display_matches.is_empty()`), otherwise `match self \x7b … \x7d`
over the arms. -/
inductive DisplayBody
  | okUnit
  | matchArms (arms : List DisplayArm)
deriving DecidableEq, Repr

/-- The `display_impl` computation of `derive_error`: `none` (no `Display`
implementation emitted at all) when the type carries `no_display`; otherwise
either the missing-message diagnostic at the offending variant's name, or the
generated implementation body. -/
def display_impl (e : Error) : Except Diagnostic (Option DisplayBody) :=
  if e.no_display then
    .ok none
  else
    match collectArms e.variants with
    | .error name => .error ⟨"Required error message is missing", name.span⟩
    | .ok arms =>
      .ok (some (if arms.isEmpty then .okUnit else .matchArms arms))

/-- One generated `From` impl (`from_impls` in `lib.rs`): the target variant,
the source type (`v.fields[&index]`), the marked field's key, and whether the
body wraps positionally (`Self::V(value)`, for a Tuple variant) or by name
(`Self::V \x7b index: value \x7d`, otherwise). -/
structure FromImpl where
  variantName : String
  from_ty : String
  key : String
  tupleBody : Bool
deriving DecidableEq, Repr

/-- Closure mapped over the variants by `from_impls` in `lib.rs`: only a
variant whose source is `From` yields an impl.  The hash-map index
`v.fields[&index]` is modelled by `lookup` with a default (the key is always
present for parser-built variants). -/
def from_impl? (v : Variant) : Option FromImpl :=
  match v.source with
  | .From index =>
    some { variantName := v.name.name,
           from_ty := (v.fields.lookup index).getD "",
           key := index,
           tupleBody := v.ty == .Tuple }
  | _ => none

/-- The `from_impls` list: one `From` impl per variant whose source is
`From`, in declaration order; `Source`-marked and unmarked variants
contribute nothing. -/
def from_impls (e : Error) : List FromImpl :=
  e.variants.filterMap from_impl?

/-- Evaluation of a generated `From::from` body on a value: the enum value it
constructs. -/
def FromImpl.apply (fi : FromImpl) (value : α) : Instance α :=
  if fi.tupleBody then
    ⟨fi.variantName, .tuple [value]⟩
  else
    ⟨fi.variantName, .struct' [(fi.key, value)]⟩

/-- Everything `derive_error` emits, as structured data: the `Error::source`
match arms, the optional `Display` implementation, and the `From` impls. -/
structure Generated where
  error_matches : List CauseArm
  display : Option DisplayBody
  from_impls : List FromImpl
deriving DecidableEq, Repr

/-- `derive_error`: parse, then generate; a parse failure or a missing
display message replaces the output with its diagnostic. -/
def derive_error (attrs : List Attribute) (name : Ident)
    (inputs : List VariantInput) : Except Diagnostic Generated := do
  let ast ← Error.parse attrs name inputs
  let display ← display_impl ast
  .ok { error_matches := error_matches ast, display, from_impls := from_impls ast }

/-! ## Unfolding lemmas for `Variant.parse` and `Error.parse` -/

theorem parse_unit_ok (attrs : List Attribute) (nm : Ident) :
    Variant.parse (.unit attrs nm) =
      .ok { name := nm, ty := .Unit, fields := [],
            display := resolveDisplay attrs .Unit 0,
            display_fields := displayFieldsOf (resolveDisplay attrs .Unit 0),
            source := .None } := by
  simp [Variant.parse, VariantInput.attrs, VariantInput.name, Bind.bind,
    Except.bind, Except.pure, Pure.pure]

theorem parse_tuple_ok (attrs : List Attribute) (nm : Ident) (raw : List Field)
    (src : ErrorSource) (flds : List (String × String))
    (h : resolveFields nm (parse_tuple_fields raw).len
      (parse_tuple_fields raw).pairs .None [] = .ok (src, flds)) :
    Variant.parse (.tuple attrs nm raw) =
      .ok { name := nm, ty := .Tuple, fields := flds,
            display := resolveDisplay attrs .Tuple flds.length,
            display_fields :=
              displayFieldsOf (resolveDisplay attrs .Tuple flds.length),
            source := src } := by
  simp [Variant.parse, VariantInput.attrs, VariantInput.name, h, Bind.bind,
    Except.bind, Except.pure, Pure.pure]

theorem parse_tuple_err (attrs : List Attribute) (nm : Ident) (raw : List Field)
    (d : Diagnostic)
    (h : resolveFields nm (parse_tuple_fields raw).len
      (parse_tuple_fields raw).pairs .None [] = .error d) :
    Variant.parse (.tuple attrs nm raw) = .error d := by
  simp [Variant.parse, VariantInput.attrs, VariantInput.name, h, Bind.bind,
    Except.bind]

theorem parse_struct_ok (attrs : List Attribute) (nm : Ident)
    (raw : List (String × Field))
    (src : ErrorSource) (flds : List (String × String))
    (h : resolveFields nm (parse_struct_fields raw).len
      (parse_struct_fields raw).pairs .None [] = .ok (src, flds)) :
    Variant.parse (.struct' attrs nm raw) =
      .ok { name := nm, ty := .Struct, fields := flds,
            display := resolveDisplay attrs .Struct flds.length,
            display_fields :=
              displayFieldsOf (resolveDisplay attrs .Struct flds.length),
            source := src } := by
  simp [Variant.parse, VariantInput.attrs, VariantInput.name, h, Bind.bind,
    Except.bind, Except.pure, Pure.pure]

theorem parse_struct_err (attrs : List Attribute) (nm : Ident)
    (raw : List (String × Field)) (d : Diagnostic)
    (h : resolveFields nm (parse_struct_fields raw).len
      (parse_struct_fields raw).pairs .None [] = .error d) :
    Variant.parse (.struct' attrs nm raw) = .error d := by
  simp [Variant.parse, VariantInput.attrs, VariantInput.name, h, Bind.bind,
    Except.bind]

/-- `Error.parse` reads the type-level attributes only through
`parse_no_display`: changing them keeps the parsed variants. -/
theorem Error.parse_attrs (attrs attrs' : List Attribute) (nm : Ident)
    (inputs : List VariantInput) (ast : Error)
    (h : Error.parse attrs nm inputs = .ok ast) :
    Error.parse attrs' nm inputs =
      .ok { ast with no_display := parse_no_display attrs' } := by
  revert h
  simp only [Error.parse, Bind.bind, Except.bind]
  cases hm : inputs.mapM Variant.parse with
  | error d => intro h; cases h
  | ok vs =>
    intro h
    cases h
    rfl

/-- A parsed type definition's `no_display` flag is `parse_no_display` of
the type-level attributes. -/
theorem Error.parse_ok_no_display (attrs : List Attribute) (nm : Ident)
    (inputs : List VariantInput) (ast : Error)
    (h : Error.parse attrs nm inputs = .ok ast) :
    ast.no_display = parse_no_display attrs := by
  revert h
  simp only [Error.parse, Bind.bind, Except.bind]
  cases hm : inputs.mapM Variant.parse with
  | error d => intro h; cases h
  | ok vs => intro h; cases h; rfl

/-- `derive_error` propagates a display-validation failure. -/
theorem derive_display_err (attrs : List Attribute) (nm : Ident)
    (inputs : List VariantInput) (ast : Error) (d : Diagnostic)
    (hp : Error.parse attrs nm inputs = .ok ast)
    (hd : display_impl ast = .error d) :
    derive_error attrs nm inputs = .error d := by
  simp [derive_error, hp, hd, Bind.bind, Except.bind]

/-- `derive_error` assembles the three generated pieces on success. -/
theorem derive_display_ok (attrs : List Attribute) (nm : Ident)
    (inputs : List VariantInput) (ast : Error) (od : Option DisplayBody)
    (hp : Error.parse attrs nm inputs = .ok ast)
    (hd : display_impl ast = .ok od) :
    derive_error attrs nm inputs =
      .ok { error_matches := error_matches ast, display := od,
            from_impls := from_impls ast } := by
  simp [derive_error, hp, hd, Bind.bind, Except.bind, Pure.pure, Except.pure]

/-- Changing only the `no_display` flag leaves the cause arms unchanged. -/
theorem error_matches_no_display (ast : Error) (b : Bool) :
    error_matches { ast with no_display := b } = error_matches ast := by
  cases ast; rfl

/-- Changing only the `no_display` flag leaves the `From` impls unchanged. -/
theorem from_impls_no_display (ast : Error) (b : Bool) :
    from_impls { ast with no_display := b } = from_impls ast := by
  cases ast; rfl

/-- C2: with the type-level `no_display` marker the generator emits no
`Display` implementation at all, whatever the variants' templates; and a
definition whose display validation would fail (`MissingDisplayMessage`)
without the marker succeeds, with no `Display` implementation, once the
marker is added. -/
theorem c2_no_display_suppresses_display :
    (∀ (attrs : List Attribute) (nm : Ident) (inputs : List VariantInput)
      (ast : Error),
      parse_no_display attrs = true →
      Error.parse attrs nm inputs = .ok ast →
      derive_error attrs nm inputs =
        .ok { error_matches := error_matches ast, display := none,
              from_impls := from_impls ast }) ∧
    (∀ (attrs : List Attribute) (nm : Ident) (inputs : List VariantInput)
      (ast : Error) (d : Diagnostic) (sp : Span),
      Error.parse attrs nm inputs = .ok ast →
      display_impl ast = .error d →
      derive_error attrs nm inputs = .error d ∧
      derive_error (⟨"no_display", none, sp⟩ :: attrs) nm inputs =
        .ok { error_matches := error_matches ast, display := none,
              from_impls := from_impls ast }) := by
  constructor
  · intro attrs nm inputs ast hnd hp
    have hflag := Error.parse_ok_no_display attrs nm inputs ast hp
    have hd : display_impl ast = .ok none := by
      simp [display_impl, hflag, hnd]
    exact derive_display_ok attrs nm inputs ast none hp hd
  · intro attrs nm inputs ast d sp hp hd
    refine ⟨derive_display_err attrs nm inputs ast d hp hd, ?_⟩
    have hp' :=
      Error.parse_attrs attrs (⟨"no_display", none, sp⟩ :: attrs) nm inputs ast hp
    have hnd' : parse_no_display (⟨"no_display", none, sp⟩ :: attrs) = true := by
      simp [parse_no_display]
    set ast' : Error :=
      { ast with no_display := parse_no_display (⟨"no_display", none, sp⟩ :: attrs) }
      with hast
    have hd' : display_impl ast' = .ok none := by
      simp [display_impl, hast, hnd']
    have := derive_display_ok (⟨"no_display", none, sp⟩ :: attrs) nm inputs
      ast' none hp' hd'
    rw [this, hast, error_matches_no_display, from_impls_no_display]

/-- Concrete parsed type definition used by the C2 witness: one Unit variant
with an empty template, formatting not suppressed. -/
def c2AST : Error where
  name := ⟨"E", 0⟩
  variants := [⟨⟨"V", 1⟩, .Unit, [], "", [], .None⟩]
  no_display := false

/-- C2 witness: a one-variant enum with an empty template fails without the
marker and succeeds, emitting no `Display` implementation, with it. -/
theorem c2_witness :
    derive_error [] ⟨"E", 0⟩ [.unit [] ⟨"V", 1⟩] =
      .error ⟨"Required error message is missing", 1⟩ ∧
    derive_error [⟨"no_display", none, 2⟩] ⟨"E", 0⟩ [.unit [] ⟨"V", 1⟩] =
      .ok { error_matches := [], display := none, from_impls := [] } :=
  c2_no_display_suppresses_display.2 [] ⟨"E", 0⟩ [.unit [] ⟨"V", 1⟩]
    c2AST ⟨"Required error message is missing", 1⟩ 2 (by rfl) (by rfl)

/-- Collecting display arms succeeds when every variant has a non-empty
template. -/
theorem collectArms_ok (l : List Variant) (h : ∀ v ∈ l, v.display ≠ "") :
    ∃ arms, collectArms l = .ok arms := by
  induction l with
  | nil => exact ⟨[], rfl⟩
  | cons v rest ih =>
    obtain ⟨arms, harms⟩ := ih (fun u hu => h u (by simp [hu]))
    have hv : v.display ≠ "" := h v (by simp)
    refine ⟨?_, ?_⟩
    · exact (match display_arm v with
        | .ok a => a :: arms
        | .error _ => arms)
    · simp only [collectArms, display_arm, if_neg hv, harms]
      rfl

/-- Collecting display arms stops at the first variant whose template is
empty and reports its name. -/
theorem collectArms_err (l1 : List Variant) (v : Variant) (l2 : List Variant)
    (h1 : ∀ u ∈ l1, u.display ≠ "") (hv : v.display = "") :
    collectArms (l1 ++ v :: l2) = .error v.name := by
  induction l1 with
  | nil => simp [collectArms, display_arm, hv]
  | cons u rest ih =>
    have hu : u.display ≠ "" := h1 u (by simp)
    have hrest := ih (fun w hw => h1 w (by simp [hw]))
    obtain ⟨a, ha⟩ : ∃ a, display_arm u = .ok a := by
      simp [display_arm, if_neg hu]
    show collectArms (u :: (rest ++ v :: l2)) = Except.error v.name
    simp only [collectArms, ha, hrest]
    rfl

/-- C3: when formatting is not suppressed, a variant with an empty template
makes display generation fail with the missing-message diagnostic at the
first such variant's name, and when every template is non-empty no such
error is raised. -/
theorem c3_missing_display_message (e : Error) (hnd : e.no_display = false) :
    ((∀ v ∈ e.variants, v.display ≠ "") →
      ∃ body, display_impl e = .ok (some body)) ∧
    (∀ l1 v l2, e.variants = l1 ++ v :: l2 →
      (∀ u ∈ l1, u.display ≠ "") → v.display = "" →
      display_impl e =
        .error ⟨"Required error message is missing", v.name.span⟩) := by
  constructor
  · intro h
    obtain ⟨arms, harms⟩ := collectArms_ok e.variants h
    refine ⟨if arms.isEmpty then .okUnit else .matchArms arms, ?_⟩
    simp [display_impl, hnd, harms]
  · intro l1 v l2 hsplit h1 hv
    have := collectArms_err l1 v l2 h1 hv
    simp [display_impl, hnd, hsplit, this]

/-- C3 witness: a two-variant enum whose second variant has an empty
template fails at that variant's name; with both templates filled it
succeeds. -/
theorem c3_witness :
    display_impl ⟨⟨"E", 0⟩, [⟨⟨"A", 1⟩, .Unit, [], "msg a", [], .None⟩,
        ⟨⟨"B", 2⟩, .Unit, [], "", [], .None⟩], false⟩ =
      .error ⟨"Required error message is missing", 2⟩ ∧
    ∃ body, display_impl ⟨⟨"E", 0⟩,
        [⟨⟨"A", 1⟩, .Unit, [], "msg a", [], .None⟩], false⟩ = .ok (some body) := by
  constructor
  · exact (c3_missing_display_message _ rfl).2
      [⟨⟨"A", 1⟩, .Unit, [], "msg a", [], .None⟩]
      ⟨⟨"B", 2⟩, .Unit, [], "", [], .None⟩ [] rfl (by decide) rfl
  · exact (c3_missing_display_message _ rfl).1 (by decide)

/-- C9: a zero-variant enum (formatting not suppressed) generates
successfully: no cause arms (so the accessor is only the catch-all returning
no cause) and the constant-success display body `Ok(())`. -/
theorem c9_zero_variants (attrs : List Attribute) (nm : Ident)
    (h : parse_no_display attrs = false) :
    derive_error attrs nm [] =
      .ok { error_matches := [], display := some .okUnit, from_impls := [] } ∧
    ∀ (inst : Instance Nat), evalCauseAccessor [] inst = none := by
  constructor
  · have hp : Error.parse attrs nm [] =
        .ok ⟨nm, [], parse_no_display attrs⟩ := by
      simp [Error.parse, List.mapM, Bind.bind, Except.bind, Pure.pure,
        Except.pure, List.mapM.loop]
    have hd : display_impl ⟨nm, [], parse_no_display attrs⟩ = .ok (some .okUnit) := by
      simp [display_impl, h, collectArms]
    have := derive_display_ok attrs nm [] ⟨nm, [], parse_no_display attrs⟩
      (some .okUnit) hp hd
    simpa [error_matches, from_impls] using this
  · intro inst
    rfl

/-- C9 witness: the zero-variant enum with no type-level attributes. -/
theorem c9_witness :
    derive_error [] ⟨"Empty", 0⟩ [] =
      .ok { error_matches := [], display := some .okUnit, from_impls := [] } ∧
    ∀ (inst : Instance Nat), evalCauseAccessor [] inst = none :=
  c9_zero_variants [] ⟨"Empty", 0⟩ rfl

/-- C7: `From` impls are emitted exactly for the `#[from]`-marked variants
(`Source`-marked and unmarked variants yield none); each impl takes a value
of the marked field's declared type and constructs exactly that variant,
wrapping positionally for a Tuple variant and under the field's name
otherwise. -/
theorem c7_conversion_constructors :
    (∀ e : Error, (from_impls e).map (fun fi => fi.variantName) =
      (e.variants.filter (fun v => match v.source with
        | .From _ => true
        | _ => false)).map (fun v => v.name.name)) ∧
    (∀ (v : Variant) (key t : String),
      v.source = .From key → v.fields.lookup key = some t →
      from_impl? v = some ⟨v.name.name, t, key, v.ty == .Tuple⟩) ∧
    (∀ v : Variant, (∀ key, v.source ≠ .From key) → from_impl? v = none) ∧
    (∀ (α : Type) (fi : FromImpl) (value : α), fi.tupleBody = true →
      fi.apply value = ⟨fi.variantName, .tuple [value]⟩) ∧
    (∀ (α : Type) (fi : FromImpl) (value : α), fi.tupleBody = false →
      fi.apply value = ⟨fi.variantName, .struct' [(fi.key, value)]⟩) := by
  refine ⟨?_, ?_, ?_, ?_, ?_⟩
  · intro e
    obtain ⟨nm, vs, nd⟩ := e
    induction vs with
    | nil => rfl
    | cons v rest ih =>
      show ((v :: rest).filterMap from_impl?).map _ = _
      cases hs : v.source with
      | From key =>
        simpa [from_impls, from_impl?, hs] using ih
      | None => simpa [from_impls, from_impl?, hs] using ih
      | Source key => simpa [from_impls, from_impl?, hs] using ih
  · intro v key t hs hl
    simp [from_impl?, hs, hl]
  · intro v h
    cases hs : v.source with
    | From key => exact absurd hs (h key)
    | None => simp [from_impl?, hs]
    | Source key => simp [from_impl?, hs]
  · intro α fi value h
    simp [FromImpl.apply, h]
  · intro α fi value h
    simp [FromImpl.apply, h]

/-- C7 witness: a `#[from]` Tuple variant yields its impl, a `#[source]`
variant yields none, and the two constructor shapes wrap as stated. -/
theorem c7_witness :
    from_impl? ⟨⟨"Io", 1⟩, .Tuple, [("0", "IoError")], "m", [], .From "0"⟩ =
      some ⟨"Io", "IoError", "0", true⟩ ∧
    from_impl? ⟨⟨"S", 2⟩, .Struct, [("err", "E")], "m", [], .Source "err"⟩ =
      none ∧
    FromImpl.apply ⟨"Io", "IoError", "0", true⟩ (7 : Nat) =
      ⟨"Io", .tuple [7]⟩ ∧
    FromImpl.apply ⟨"W", "E", "err", false⟩ (5 : Nat) =
      ⟨"W", .struct' [("err", 5)]⟩ := by
  refine ⟨?_, ?_, ?_, ?_⟩
  · exact c7_conversion_constructors.2.1
      ⟨⟨"Io", 1⟩, .Tuple, [("0", "IoError")], "m", [], .From "0"⟩
      "0" "IoError" rfl rfl
  · exact c7_conversion_constructors.2.2.1
      ⟨⟨"S", 2⟩, .Struct, [("err", "E")], "m", [], .Source "err"⟩
      (by intro key h; cases h)
  · exact c7_conversion_constructors.2.2.2.1 Nat ⟨"Io", "IoError", "0", true⟩ 7 rfl
  · exact c7_conversion_constructors.2.2.2.2 Nat ⟨"W", "E", "err", false⟩ 5 rfl

/-- Every cause arm is headed by its variant's name. -/
theorem cause_arm?_name (v : Variant) (arm : CauseArm)
    (h : cause_arm? v = some arm) : arm.variantName = v.name.name := by
  revert h
  cases hs : v.source <;> simp only [cause_arm?, hs] <;> intro h
  · cases h
  · cases h
    cases v.ty <;> rfl
  · cases h
    cases v.ty <;> rfl

/-- An arm headed by a different variant name never matches. -/
theorem tryMatch_ne (arm : CauseArm) (inst : Instance α)
    (h : arm.variantName ≠ inst.variantName) : arm.tryMatch inst = none := by
  have h' : inst.variantName ≠ arm.variantName := fun he => h he.symm
  cases arm <;> cases hp : inst.payload <;>
    simp_all [CauseArm.tryMatch, CauseArm.variantName]

/-- Arms that all fail to match are skipped. -/
theorem evalCauseAccessor_append (arms1 arms2 : List CauseArm)
    (inst : Instance α) (h : ∀ a ∈ arms1, a.tryMatch inst = none) :
    evalCauseAccessor (arms1 ++ arms2) inst = evalCauseAccessor arms2 inst := by
  induction arms1 with
  | nil => rfl
  | cons a rest ih =>
    show evalCauseAccessor (a :: (rest ++ arms2)) inst = _
    simp only [evalCauseAccessor, h a (by simp)]
    exact ih (fun a' ha' => h a' (by simp [ha']))

/-- A match none of whose arms fires falls through to the catch-all. -/
theorem evalCauseAccessor_none (arms : List CauseArm) (inst : Instance α)
    (h : ∀ a ∈ arms, a.tryMatch inst = none) :
    evalCauseAccessor arms inst = none := by
  have := evalCauseAccessor_append arms [] inst h
  simpa using this

/-- Arms generated from variants whose names differ from the instance's
variant never match it. -/
theorem filterMap_cause_arm_nomatch (l : List Variant) (inst : Instance α)
    (h : ∀ u ∈ l, u.name.name ≠ inst.variantName) :
    ∀ a ∈ l.filterMap cause_arm?, a.tryMatch inst = none := by
  intro a ha
  obtain ⟨u, hu, hau⟩ := List.mem_filterMap.mp ha
  exact tryMatch_ne a inst (by rw [cause_arm?_name u a hau]; exact h u hu)

/-- C6: the generated cause accessor has exactly one arm per marked variant
(in declaration order); on an instance of a marked Tuple variant it returns
the field at the marked position, on an instance of a marked Struct variant
the field with the marked name, and on an instance of an unmarked variant it
falls through to the catch-all and returns no cause. -/
theorem c6_cause_accessor :
    (∀ e : Error, (error_matches e).map CauseArm.variantName =
      (e.variants.filter (fun v => v.source ≠ .None)).map
        (fun v => v.name.name)) ∧
    (∀ (α : Type) (e : Error) (l1 : List Variant) (v : Variant)
      (l2 : List Variant) (key : String) (i : Nat) (vals : List α),
      e.variants = l1 ++ v :: l2 →
      (∀ u ∈ l1, u.name.name ≠ v.name.name) →
      (v.source = .From key ∨ v.source = .Source key) →
      v.ty = .Tuple → parseUsize key = i → vals.length = v.fields.length →
      ∀ (hi : i < vals.length),
      evalCauseAccessor (error_matches e) ⟨v.name.name, .tuple vals⟩ =
        some vals[i]) ∧
    (∀ (α : Type) (e : Error) (l1 : List Variant) (v : Variant)
      (l2 : List Variant) (key : String) (vals : List (String × α)),
      e.variants = l1 ++ v :: l2 →
      (∀ u ∈ l1, u.name.name ≠ v.name.name) →
      (v.source = .From key ∨ v.source = .Source key) →
      v.ty = .Struct →
      evalCauseAccessor (error_matches e) ⟨v.name.name, .struct' vals⟩ =
        vals.lookup key) ∧
    (∀ (α : Type) (e : Error) (inst : Instance α),
      (∀ u ∈ e.variants, u.name.name = inst.variantName → u.source = .None) →
      evalCauseAccessor (error_matches e) inst = none) := by
  refine ⟨?_, ?_, ?_, ?_⟩
  · intro e
    obtain ⟨nm, vs, nd⟩ := e
    induction vs with
    | nil => rfl
    | cons v rest ih =>
      show ((v :: rest).filterMap cause_arm?).map _ = _
      obtain ⟨vname, vty, vfields, vdisp, vdf, vsrc⟩ := v
      cases vsrc <;> cases vty <;>
        simpa [error_matches, cause_arm?, CauseArm.variantName] using ih
  · intro α e l1 v l2 key i vals hsplit h1 hs hty hkey hlen hi
    have harm : cause_arm? v =
        some (.tupleSome v.name.name (parseUsize key) v.fields.length) := by
      rcases hs with hs | hs <;> simp [cause_arm?, hs, hty]
    rw [error_matches, hsplit, List.filterMap_append,
      evalCauseAccessor_append _ _ _
        (filterMap_cause_arm_nomatch l1 _ h1)]
    show evalCauseAccessor ((v :: l2).filterMap cause_arm?) _ = _
    rw [List.filterMap_cons, harm]
    simp only [evalCauseAccessor, CauseArm.tryMatch, hkey, hlen]
    simp [hi, List.getElem?_eq_getElem]
  · intro α e l1 v l2 key vals hsplit h1 hs hty
    have harm : cause_arm? v = some (.structSome v.name.name key) := by
      rcases hs with hs | hs <;> simp [cause_arm?, hs, hty]
    rw [error_matches, hsplit, List.filterMap_append,
      evalCauseAccessor_append _ _ _
        (filterMap_cause_arm_nomatch l1 _ h1)]
    show evalCauseAccessor ((v :: l2).filterMap cause_arm?) _ = _
    rw [List.filterMap_cons, harm]
    simp [evalCauseAccessor, CauseArm.tryMatch]
  · intro α e inst h
    refine evalCauseAccessor_none _ _ ?_
    intro a ha
    obtain ⟨u, hu, hau⟩ := List.mem_filterMap.mp ha
    refine tryMatch_ne a inst ?_
    rw [cause_arm?_name u a hau]
    intro he
    have hnone := h u hu he
    simp [cause_arm?, hnone] at hau

/-- Concrete marked Tuple variant for the C6 witness (`#[source]` on the
second field). -/
def c6vT : Variant :=
  ⟨⟨"Io", 1⟩, .Tuple, [("0", "IoError"), ("1", "U")], "m", [], .Source "1"⟩

/-- Concrete marked Struct variant for the C6 witness (`#[from]` on `err`). -/
def c6vS : Variant := ⟨⟨"W", 2⟩, .Struct, [("err", "E")], "m", [], .From "err"⟩

/-- Concrete unmarked Unit variant for the C6 witness. -/
def c6vU : Variant := ⟨⟨"U", 3⟩, .Unit, [], "m", [], .None⟩

/-- Concrete type definition for the C6 witness. -/
def c6E : Error := ⟨⟨"E", 0⟩, [c6vT, c6vS, c6vU], false⟩

/-- C6 witness: on the concrete three-variant enum, the generated accessor
returns the marked tuple position, the marked struct field, and no cause for
the unmarked variant. -/
theorem c6_witness :
    evalCauseAccessor (error_matches c6E) ⟨"Io", .tuple [10, 20]⟩ =
      some (20 : Nat) ∧
    evalCauseAccessor (error_matches c6E) ⟨"W", .struct' [("err", 5)]⟩ =
      some (5 : Nat) ∧
    evalCauseAccessor (error_matches c6E) ⟨"U", Payload.unit⟩ =
      (none : Option Nat) := by
  refine ⟨?_, ?_, ?_⟩
  · exact c6_cause_accessor.2.1 Nat c6E [] c6vT [c6vS, c6vU] "1" 1 [10, 20]
      rfl (by intro u hu; cases hu) (Or.inr rfl) rfl (by decide) rfl (by decide)
  · exact c6_cause_accessor.2.2.1 Nat c6E [c6vT] c6vS [c6vU] "err"
      [("err", 5)] rfl (by decide) (Or.inl rfl) rfl
  · exact c6_cause_accessor.2.2.2 Nat c6E ⟨"U", Payload.unit⟩ (by decide)

/-! ## Behaviour of the cause-marker resolution loop -/

/-- Once a marker is resolved, the very next marker attribute of the same
field raises the duplicate diagnostic at its own span, naming the resolved
field. -/
theorem processAttrs_resolved (vn : Ident) (n : Nat) (key k₁ : String)
    (src : ErrorSource) (a : Attribute) (rest : List Attribute)
    (h : src.as_ref = some k₁) :
    processAttrs vn n key (a :: rest) src = .error ⟨dupMsg k₁, a.span⟩ := by
  cases src with
  | None => cases h
  | From k => cases h; rfl
  | Source k => cases h; rfl

/-- The flattened marker occurrences of a field list decompose along its
head. -/
theorem flattenMarkers_cons (key : String) (f : Field)
    (rest : List (String × Field)) :
    flattenMarkers ((key, f) :: rest) =
      (markerAttrs f).map (fun a => (key, a)) ++ flattenMarkers rest := by
  simp [flattenMarkers]

/-- Fields without marker attributes are scanned transparently. -/
theorem resolveFields_no_markers (vn : Ident) (n : Nat)
    (pairs : List (String × Field)) (h : flattenMarkers pairs = []) :
    ∀ (src : ErrorSource) (acc : List (String × String)),
      ∃ flds, resolveFields vn n pairs src acc = .ok (src, flds) := by
  induction pairs with
  | nil => exact fun src acc => ⟨acc, rfl⟩
  | cons kf rest ih =>
    intro src acc
    obtain ⟨key, f⟩ := kf
    rw [flattenMarkers_cons] at h
    obtain ⟨h1, h2⟩ := List.append_eq_nil.mp h
    have hm : markerAttrs f = [] := List.map_eq_nil_iff.mp h1
    obtain ⟨flds, hflds⟩ := ih h2 src (hashInsert key f.path acc).2
    refine ⟨flds, ?_⟩
    simp only [resolveFields, hm, processAttrs, Bind.bind, Except.bind]
    exact hflds

/-- With a marker already resolved to field `k₁`, scanning the remaining
fields fails at the next marker occurrence with the duplicate diagnostic. -/
theorem resolveFields_resolved_dup (vn : Ident) (n : Nat) (k₁ : String) :
    ∀ (pairs : List (String × Field)) (src : ErrorSource)
      (acc : List (String × String)) (k₂ : String) (a₂ : Attribute)
      (rest : List (String × Attribute)),
      src.as_ref = some k₁ →
      flattenMarkers pairs = (k₂, a₂) :: rest →
      resolveFields vn n pairs src acc = .error ⟨dupMsg k₁, a₂.span⟩ := by
  intro pairs
  induction pairs with
  | nil => intro src acc k₂ a₂ rest _ hflat; cases hflat
  | cons kf tail ih =>
    intro src acc k₂ a₂ rest hsrc hflat
    obtain ⟨key, f⟩ := kf
    rw [flattenMarkers_cons] at hflat
    cases hm : markerAttrs f with
    | nil =>
      rw [hm] at hflat
      simp only [List.map_nil, List.nil_append] at hflat
      simp only [resolveFields, hm, processAttrs, Bind.bind, Except.bind]
      exact ih src (hashInsert key f.path acc).2 k₂ a₂ rest hsrc hflat
    | cons a as =>
      rw [hm] at hflat
      simp only [List.map_cons, List.cons_append, List.cons.injEq, Prod.mk.injEq] at hflat
      obtain ⟨⟨hk, ha⟩, _⟩ := hflat
      subst hk ha
      simp only [resolveFields, hm, Bind.bind, Except.bind,
        processAttrs_resolved vn n key k₁ src a as hsrc]

/-- Scanning a field list whose first marker occurrence is a `#[source]`
attribute, with no further markers, resolves to `Source` of that field. -/
theorem resolveFields_single_source (vn : Ident) (n : Nat) :
    ∀ (pairs : List (String × Field)) (acc : List (String × String))
      (k₁ : String) (a₁ : Attribute),
      flattenMarkers pairs = [(k₁, a₁)] → a₁.name ≠ "from" →
      ∃ flds, resolveFields vn n pairs .None acc = .ok (.Source k₁, flds) := by
  intro pairs
  induction pairs with
  | nil => intro acc k₁ a₁ hflat; cases hflat
  | cons kf tail ih =>
    intro acc k₁ a₁ hflat hnf
    obtain ⟨key, f⟩ := kf
    rw [flattenMarkers_cons] at hflat
    cases hm : markerAttrs f with
    | nil =>
      rw [hm] at hflat
      simp only [List.map_nil, List.nil_append] at hflat
      obtain ⟨flds, hflds⟩ := ih (hashInsert key f.path acc).2 k₁ a₁ hflat hnf
      refine ⟨flds, ?_⟩
      simp only [resolveFields, hm, processAttrs, Bind.bind, Except.bind]
      exact hflds
    | cons a as =>
      rw [hm] at hflat
      simp only [List.map_cons, List.cons_append, List.cons.injEq, Prod.mk.injEq] at hflat
      obtain ⟨⟨hk, ha⟩, htail⟩ := hflat
      subst hk ha
      obtain ⟨has, hrest⟩ := List.append_eq_nil.mp htail
      have has' : as = [] := List.map_eq_nil_iff.mp has
      subst has'
      obtain ⟨flds, hflds⟩ :=
        resolveFields_no_markers vn n tail hrest (.Source key)
          (hashInsert key f.path acc).2
      refine ⟨flds, ?_⟩
      simp only [resolveFields, hm, Bind.bind, Except.bind, processAttrs,
        ErrorSource.as_ref, if_neg hnf]
      exact hflds

/-- Scanning a field list whose first marker occurrence is a `#[from]`
attribute on a variant with at most one field, with no further markers,
resolves to `From` of that field. -/
theorem resolveFields_single_from (vn : Ident) (n : Nat) (hn : ¬ 1 < n) :
    ∀ (pairs : List (String × Field)) (acc : List (String × String))
      (k₁ : String) (a₁ : Attribute),
      flattenMarkers pairs = [(k₁, a₁)] → a₁.name = "from" →
      ∃ flds, resolveFields vn n pairs .None acc = .ok (.From k₁, flds) := by
  intro pairs
  induction pairs with
  | nil => intro acc k₁ a₁ hflat; cases hflat
  | cons kf tail ih =>
    intro acc k₁ a₁ hflat hnf
    obtain ⟨key, f⟩ := kf
    rw [flattenMarkers_cons] at hflat
    cases hm : markerAttrs f with
    | nil =>
      rw [hm] at hflat
      simp only [List.map_nil, List.nil_append] at hflat
      obtain ⟨flds, hflds⟩ := ih (hashInsert key f.path acc).2 k₁ a₁ hflat hnf
      refine ⟨flds, ?_⟩
      simp only [resolveFields, hm, processAttrs, Bind.bind, Except.bind]
      exact hflds
    | cons a as =>
      rw [hm] at hflat
      simp only [List.map_cons, List.cons_append, List.cons.injEq, Prod.mk.injEq] at hflat
      obtain ⟨⟨hk, ha⟩, htail⟩ := hflat
      subst hk ha
      obtain ⟨has, hrest⟩ := List.append_eq_nil.mp htail
      have has' : as = [] := List.map_eq_nil_iff.mp has
      subst has'
      obtain ⟨flds, hflds⟩ :=
        resolveFields_no_markers vn n tail hrest (.From key)
          (hashInsert key f.path acc).2
      refine ⟨flds, ?_⟩
      simp only [resolveFields, hm, Bind.bind, Except.bind, processAttrs,
        ErrorSource.as_ref, if_pos hnf, if_neg hn]
      exact hflds

/-- Scanning a field list whose first marker resolves (no arity failure)
fails at the second marker occurrence with the duplicate diagnostic naming
the first marker's field. -/
theorem resolveFields_dup (vn : Ident) (n : Nat) :
    ∀ (pairs : List (String × Field)) (acc : List (String × String))
      (k₁ k₂ : String) (a₁ a₂ : Attribute) (rest : List (String × Attribute)),
      flattenMarkers pairs = (k₁, a₁) :: (k₂, a₂) :: rest →
      ¬(a₁.name = "from" ∧ 1 < n) →
      resolveFields vn n pairs .None acc = .error ⟨dupMsg k₁, a₂.span⟩ := by
  intro pairs
  induction pairs with
  | nil => intro acc k₁ k₂ a₁ a₂ rest hflat _; cases hflat
  | cons kf tail ih =>
    intro acc k₁ k₂ a₁ a₂ rest hflat hnoar
    obtain ⟨key, f⟩ := kf
    rw [flattenMarkers_cons] at hflat
    cases hm : markerAttrs f with
    | nil =>
      rw [hm] at hflat
      simp only [List.map_nil, List.nil_append] at hflat
      simp only [resolveFields, hm, processAttrs, Bind.bind, Except.bind]
      exact ih _ k₁ k₂ a₁ a₂ rest hflat hnoar
    | cons a as =>
      rw [hm] at hflat
      cases as with
      | cons b bs =>
        simp only [List.map_cons, List.cons_append, List.cons.injEq,
          Prod.mk.injEq] at hflat
        obtain ⟨⟨hk1, ha1⟩, ⟨hk2, ha2⟩, _⟩ := hflat
        subst hk1 ha1 hk2 ha2
        have hpa : processAttrs vn n key (a :: b :: bs) .None =
            .error ⟨dupMsg key, b.span⟩ := by
          by_cases hf : a.name = "from"
          · have hn : ¬ 1 < n := fun h => hnoar ⟨hf, h⟩
            rw [show processAttrs vn n key (a :: b :: bs) .None =
                processAttrs vn n key (b :: bs) (.From key) by
              simp [processAttrs, ErrorSource.as_ref, hf, hn]]
            exact processAttrs_resolved vn n key key (.From key) b bs rfl
          · rw [show processAttrs vn n key (a :: b :: bs) .None =
                processAttrs vn n key (b :: bs) (.Source key) by
              simp [processAttrs, ErrorSource.as_ref, hf]]
            exact processAttrs_resolved vn n key key (.Source key) b bs rfl
        simp only [resolveFields, hm, hpa, Bind.bind, Except.bind]
      | nil =>
        simp only [List.map_cons, List.map_nil, List.cons_append,
          List.nil_append, List.cons.injEq, Prod.mk.injEq] at hflat
        obtain ⟨⟨hk1, ha1⟩, htail⟩ := hflat
        subst hk1 ha1
        by_cases hf : a.name = "from"
        · have hn : ¬ 1 < n := fun h => hnoar ⟨hf, h⟩
          have hpa : processAttrs vn n key [a] .None = .ok (.From key) := by
            simp [processAttrs, ErrorSource.as_ref, hf, hn]
          simp only [resolveFields, hm, hpa, Bind.bind, Except.bind]
          exact resolveFields_resolved_dup vn n key tail (.From key) _ k₂ a₂
            rest rfl htail
        · have hpa : processAttrs vn n key [a] .None = .ok (.Source key) := by
            simp [processAttrs, ErrorSource.as_ref, hf]
          simp only [resolveFields, hm, hpa, Bind.bind, Except.bind]
          exact resolveFields_resolved_dup vn n key tail (.Source key) _ k₂ a₂
            rest rfl htail

/-- Scanning a field list of a multi-field variant whose first marker
occurrence is a `#[from]` attribute fails with the arity diagnostic at the
variant's name. -/
theorem resolveFields_arity (vn : Ident) (n : Nat) (hn : 1 < n) :
    ∀ (pairs : List (String × Field)) (acc : List (String × String))
      (k₁ : String) (a₁ : Attribute) (rest : List (String × Attribute)),
      flattenMarkers pairs = (k₁, a₁) :: rest → a₁.name = "from" →
      resolveFields vn n pairs .None acc = .error ⟨arityMsg, vn.span⟩ := by
  intro pairs
  induction pairs with
  | nil => intro acc k₁ a₁ rest hflat _; cases hflat
  | cons kf tail ih =>
    intro acc k₁ a₁ rest hflat hf
    obtain ⟨key, f⟩ := kf
    rw [flattenMarkers_cons] at hflat
    cases hm : markerAttrs f with
    | nil =>
      rw [hm] at hflat
      simp only [List.map_nil, List.nil_append] at hflat
      simp only [resolveFields, hm, processAttrs, Bind.bind, Except.bind]
      exact ih _ k₁ a₁ rest hflat hf
    | cons a as =>
      rw [hm] at hflat
      simp only [List.map_cons, List.cons_append, List.cons.injEq,
        Prod.mk.injEq] at hflat
      obtain ⟨⟨hk1, ha1⟩, _⟩ := hflat
      subst hk1 ha1
      have hpa : processAttrs vn n key (a :: as) .None =
          .error ⟨arityMsg, vn.span⟩ := by
        simp [processAttrs, ErrorSource.as_ref, hf, hn]
      simp only [resolveFields, hm, hpa, Bind.bind, Except.bind]

/-- C4: a second cause marker encountered after one has been resolved —
whether on the same field or a different one — makes parsing fail with the
duplicate diagnostic, located at the duplicate marker's span and naming the
field that carried the first marker; stated over the resolution loop and
lifted to Tuple and Struct variant parsing. -/
theorem c4_duplicate_cause_marker :
    (∀ (vn : Ident) (n : Nat) (pairs : List (String × Field))
      (acc : List (String × String)) (k₁ k₂ : String) (a₁ a₂ : Attribute)
      (rest : List (String × Attribute)),
      flattenMarkers pairs = (k₁, a₁) :: (k₂, a₂) :: rest →
      ¬(a₁.name = "from" ∧ 1 < n) →
      resolveFields vn n pairs .None acc = .error ⟨dupMsg k₁, a₂.span⟩) ∧
    (∀ (attrs : List Attribute) (nm : Ident) (raw : List Field)
      (k₁ k₂ : String) (a₁ a₂ : Attribute) (rest : List (String × Attribute)),
      flattenMarkers (parse_tuple_fields raw).pairs =
        (k₁, a₁) :: (k₂, a₂) :: rest →
      ¬(a₁.name = "from" ∧ 1 < (parse_tuple_fields raw).len) →
      Variant.parse (.tuple attrs nm raw) = .error ⟨dupMsg k₁, a₂.span⟩) ∧
    (∀ (attrs : List Attribute) (nm : Ident) (raw : List (String × Field))
      (k₁ k₂ : String) (a₁ a₂ : Attribute) (rest : List (String × Attribute)),
      flattenMarkers (parse_struct_fields raw).pairs =
        (k₁, a₁) :: (k₂, a₂) :: rest →
      ¬(a₁.name = "from" ∧ 1 < (parse_struct_fields raw).len) →
      Variant.parse (.struct' attrs nm raw) = .error ⟨dupMsg k₁, a₂.span⟩) := by
  refine ⟨?_, ?_, ?_⟩
  · intro vn n pairs acc k₁ k₂ a₁ a₂ rest hflat hnoar
    exact resolveFields_dup vn n pairs acc k₁ k₂ a₁ a₂ rest hflat hnoar
  · intro attrs nm raw k₁ k₂ a₁ a₂ rest hflat hnoar
    exact parse_tuple_err attrs nm raw _
      (resolveFields_dup nm _ _ [] k₁ k₂ a₁ a₂ rest hflat hnoar)
  · intro attrs nm raw k₁ k₂ a₁ a₂ rest hflat hnoar
    exact parse_struct_err attrs nm raw _
      (resolveFields_dup nm _ _ [] k₁ k₂ a₁ a₂ rest hflat hnoar)

/-- C4 witness: markers on two different fields of a tuple variant, and two
markers on the same struct field, each fail at the duplicate marker's span
naming the first field. -/
theorem c4_witness :
    Variant.parse (.tuple [] ⟨"Dup", 3⟩
      [⟨[⟨"source", none, 31⟩], "A"⟩, ⟨[⟨"from", none, 32⟩], "B"⟩]) =
      .error ⟨dupMsg "0", 32⟩ ∧
    Variant.parse (.struct' [] ⟨"Dup2", 5⟩
      [("err", ⟨[⟨"source", none, 51⟩, ⟨"source", none, 52⟩], "A"⟩)]) =
      .error ⟨dupMsg "err", 52⟩ := by
  constructor
  · exact c4_duplicate_cause_marker.2.1 [] ⟨"Dup", 3⟩
      [⟨[⟨"source", none, 31⟩], "A"⟩, ⟨[⟨"from", none, 32⟩], "B"⟩]
      "0" "1" ⟨"source", none, 31⟩ ⟨"from", none, 32⟩ [] rfl (by decide)
  · exact c4_duplicate_cause_marker.2.2 [] ⟨"Dup2", 5⟩
      [("err", ⟨[⟨"source", none, 51⟩, ⟨"source", none, 52⟩], "A"⟩)]
      "err" "err" ⟨"source", none, 51⟩ ⟨"source", none, 52⟩ [] rfl (by decide)

/-- C5 counterexample: a two-field tuple variant with `#[source]` on the
first field and `#[from]` on the second.  The claim says the `#[from]`
marker makes parsing fail with the arity diagnostic at the variant's name;
the code instead reports the duplicate-marker diagnostic at the `#[from]`
marker's span. -/
theorem c5_counterexample :
    Variant.parse (.tuple [] ⟨"Ar", 4⟩
      [⟨[⟨"source", none, 41⟩], "A"⟩, ⟨[⟨"from", none, 42⟩], "B"⟩]) =
      .error ⟨dupMsg "0", 42⟩ ∧
    (⟨dupMsg "0", 42⟩ : Diagnostic) ≠ ⟨arityMsg, 4⟩ := by
  constructor
  · rfl
  · decide

/-- C5 (amended): a `#[from]` marker anywhere on a multi-field variant makes
resolution fail; the diagnostic is the arity error at the variant's name
when the `#[from]` is the variant's first cause marker (otherwise the
duplicate-marker error takes precedence); `#[source]` alone on a multi-field
variant is accepted, and `#[from]` alone on a single-field variant is
accepted. -/
theorem c5_conversion_arity :
    (∀ (vn : Ident) (n : Nat) (pairs : List (String × Field))
      (acc : List (String × String)) (k₁ : String) (a₁ : Attribute)
      (rest : List (String × Attribute)),
      1 < n → flattenMarkers pairs = (k₁, a₁) :: rest → a₁.name = "from" →
      resolveFields vn n pairs .None acc = .error ⟨arityMsg, vn.span⟩) ∧
    (∀ (vn : Ident) (n : Nat) (pairs : List (String × Field))
      (acc : List (String × String)) (k : String) (a : Attribute),
      (k, a) ∈ flattenMarkers pairs → a.name = "from" → 1 < n →
      ∃ d, resolveFields vn n pairs .None acc = .error d) ∧
    (∀ (vn : Ident) (n : Nat) (pairs : List (String × Field))
      (acc : List (String × String)) (k₁ : String) (a₁ : Attribute),
      flattenMarkers pairs = [(k₁, a₁)] → a₁.name ≠ "from" →
      ∃ flds, resolveFields vn n pairs .None acc = .ok (.Source k₁, flds)) ∧
    (∀ (vn : Ident) (n : Nat) (pairs : List (String × Field))
      (acc : List (String × String)) (k₁ : String) (a₁ : Attribute),
      ¬ 1 < n → flattenMarkers pairs = [(k₁, a₁)] → a₁.name = "from" →
      ∃ flds, resolveFields vn n pairs .None acc = .ok (.From k₁, flds)) ∧
    (∀ (attrs : List Attribute) (nm : Ident) (raw : List Field)
      (k₁ : String) (a₁ : Attribute) (rest : List (String × Attribute)),
      1 < (parse_tuple_fields raw).len →
      flattenMarkers (parse_tuple_fields raw).pairs = (k₁, a₁) :: rest →
      a₁.name = "from" →
      Variant.parse (.tuple attrs nm raw) = .error ⟨arityMsg, nm.span⟩) := by
  refine ⟨?_, ?_, ?_, ?_, ?_⟩
  · intro vn n pairs acc k₁ a₁ rest hn hflat hf
    exact resolveFields_arity vn n hn pairs acc k₁ a₁ rest hflat hf
  · intro vn n pairs acc k a hmem hf hn
    cases hflat : flattenMarkers pairs with
    | nil => rw [hflat] at hmem; cases hmem
    | cons x t =>
      obtain ⟨k₁, a₁⟩ := x
      by_cases hf1 : a₁.name = "from"
      · exact ⟨_, resolveFields_arity vn n hn pairs acc k₁ a₁ t hflat hf1⟩
      · cases t with
        | nil =>
          rw [hflat] at hmem
          simp only [List.mem_singleton, Prod.mk.injEq] at hmem
          exact absurd (hmem.2 ▸ hf) hf1
        | cons y t' =>
          obtain ⟨k₂, a₂⟩ := y
          exact ⟨_, resolveFields_dup vn n pairs acc k₁ k₂ a₁ a₂ t' hflat
            (fun hc => hf1 hc.1)⟩
  · intro vn n pairs acc k₁ a₁ hflat hnf
    exact resolveFields_single_source vn n pairs acc k₁ a₁ hflat hnf
  · intro vn n pairs acc k₁ a₁ hn hflat hf
    exact resolveFields_single_from vn n hn pairs acc k₁ a₁ hflat hf
  · intro attrs nm raw k₁ a₁ rest hn hflat hf
    exact parse_tuple_err attrs nm raw _
      (resolveFields_arity nm _ hn _ [] k₁ a₁ rest hflat hf)

/-- C5 witness: `#[from]` alone on a two-field tuple variant fails with the
arity diagnostic at the variant's name; `#[source]` alone on a two-field
variant resolves to `Source`; `#[from]` alone on a single-field variant
resolves to `From`. -/
theorem c5_witness :
    Variant.parse (.tuple [] ⟨"Ar", 6⟩
      [⟨[⟨"from", none, 61⟩], "A"⟩, ⟨[], "B"⟩]) =
      .error ⟨arityMsg, 6⟩ ∧
    (∃ flds, resolveFields ⟨"S", 7⟩ 2
      [("0", ⟨[⟨"source", none, 71⟩], "A"⟩), ("1", ⟨[], "B"⟩)] .None [] =
      .ok (.Source "0", flds)) ∧
    (∃ flds, resolveFields ⟨"F", 8⟩ 1
      [("0", ⟨[⟨"from", none, 81⟩], "A"⟩)] .None [] =
      .ok (.From "0", flds)) := by
  refine ⟨?_, ?_, ?_⟩
  · exact c5_conversion_arity.2.2.2.2 [] ⟨"Ar", 6⟩
      [⟨[⟨"from", none, 61⟩], "A"⟩, ⟨[], "B"⟩]
      "0" ⟨"from", none, 61⟩ [] (by decide) rfl rfl
  · exact c5_conversion_arity.2.2.1 ⟨"S", 7⟩ 2
      [("0", ⟨[⟨"source", none, 71⟩], "A"⟩), ("1", ⟨[], "B"⟩)] []
      "0" ⟨"source", none, 71⟩ rfl (by decide)
  · exact c5_conversion_arity.2.2.2.1 ⟨"F", 8⟩ 1
      [("0", ⟨[⟨"from", none, 81⟩], "A"⟩)] []
      "0" ⟨"from", none, 81⟩ (by decide) rfl rfl

/-! ## Characterization of the placeholder-name extraction -/

/-- A well-formed placeholder of a display template: a bare field name and
an optional format spec written after a colon. -/
structure Placeholder where
  name : String
  spec : Option String
deriving DecidableEq, Repr

/-- Characters of a placeholder's body, between its braces. -/
def phChars (p : Placeholder) : List Char :=
  p.name.data ++ (match p.spec with | some sp => ':' :: sp.data | none => [])

/-- Characters of a template suffix made of placeholders each followed by a
literal. -/
def renderChunks : List (Placeholder × String) → List Char
  | [] => []
  | (p, lit) :: rest => '{' :: (phChars p ++ '}' :: (lit.data ++ renderChunks rest))

/-- A template as literal text interleaved with well-formed placeholders. -/
def renderTemplate (lit0 : String) (chunks : List (Placeholder × String)) :
    String :=
  ⟨lit0.data ++ renderChunks chunks⟩

/-- Well-formedness of a placeholder: its name is brace- and colon-free and
its format spec is brace-free. -/
def PlaceholderOk (p : Placeholder) : Prop :=
  '{' ∉ p.name.data ∧ '}' ∉ p.name.data ∧ ':' ∉ p.name.data ∧
  (match p.spec with
   | some sp => '{' ∉ sp.data ∧ '}' ∉ sp.data
   | none => True)

/-- Splitting a separator-free list yields that list alone. -/
theorem splitOnChar_not_mem (sep : Char) (xs : List Char) (h : sep ∉ xs) :
    splitOnChar sep xs = [xs] := by
  induction xs with
  | nil => rfl
  | cons x rest ih =>
    have hx : x ≠ sep := fun he => h (he ▸ List.mem_cons_self x rest)
    have hrest := ih (fun hm => h (List.mem_cons_of_mem x hm))
    simp [splitOnChar, hx, hrest]

/-- Splitting at the first separator after a separator-free prefix peels the
prefix off as the first segment. -/
theorem splitOnChar_append (sep : Char) (pre ys : List Char) (h : sep ∉ pre) :
    splitOnChar sep (pre ++ sep :: ys) = pre :: splitOnChar sep ys := by
  induction pre with
  | nil => simp [splitOnChar]
  | cons x rest ih =>
    have hx : x ≠ sep := fun he => h (he ▸ List.mem_cons_self x rest)
    have hrest := ih (fun hm => h (List.mem_cons_of_mem x hm))
    simp only [List.cons_append, splitOnChar, if_neg hx, List.append_eq, hrest]

/-- Splitting a rendered template at the opening braces yields the leading
literal and then one segment per placeholder. -/
theorem splitOnChar_renderChunks :
    ∀ (chunks : List (Placeholder × String)) (pre : List Char),
      '{' ∉ pre →
      (∀ c ∈ chunks, '{' ∉ phChars c.1 ∧ '{' ∉ c.2.data) →
      splitOnChar '{' (pre ++ renderChunks chunks) =
        pre :: chunks.map (fun c => phChars c.1 ++ '}' :: c.2.data) := by
  intro chunks
  induction chunks with
  | nil =>
    intro pre hpre _
    simp only [renderChunks, List.append_nil, List.map_nil]
    exact splitOnChar_not_mem '{' pre hpre
  | cons c rest ih =>
    intro pre hpre hok
    obtain ⟨p, lit⟩ := c
    have hbody : '{' ∉ phChars p ++ '}' :: lit.data := by
      intro hm
      rcases List.mem_append.mp hm with hm | hm
      · exact (hok (p, lit) (by simp)).1 hm
      · rcases List.mem_cons.mp hm with hm | hm
        · cases hm
        · exact (hok (p, lit) (by simp)).2 hm
    calc splitOnChar '{' (pre ++ renderChunks ((p, lit) :: rest))
        = splitOnChar '{'
            (pre ++ '{' :: ((phChars p ++ '}' :: lit.data) ++ renderChunks rest)) := by
          simp [renderChunks]
      _ = pre :: splitOnChar '{'
            ((phChars p ++ '}' :: lit.data) ++ renderChunks rest) :=
          splitOnChar_append '{' pre _ hpre
      _ = pre :: (phChars p ++ '}' :: lit.data) ::
            rest.map (fun c => phChars c.1 ++ '}' :: c.2.data) := by
          rw [ih _ hbody (fun c hc => hok c (by simp [hc]))]
      _ = pre :: ((p, lit) :: rest).map (fun c => phChars c.1 ++ '}' :: c.2.data) := by
          simp

/-- `takeWhile` stops exactly at the first failing element. -/
theorem takeWhile_append_cons (p : Char → Bool) (xs : List Char) (y : Char)
    (ys : List Char) (hxs : ∀ x ∈ xs, p x) (hy : ¬ p y) :
    (xs ++ y :: ys).takeWhile p = xs := by
  induction xs with
  | nil => simp [List.takeWhile, hy]
  | cons x rest ih =>
    have hx : p x := hxs x (by simp)
    simp only [List.cons_append, List.takeWhile_cons, hx, if_true]
    rw [ih (fun x hx' => hxs x (by simp [hx']))]

/-- `takeWhile` keeps a list all of whose elements satisfy the predicate. -/
theorem takeWhile_all (p : Char → Bool) (xs : List Char)
    (hxs : ∀ x ∈ xs, p x) : xs.takeWhile p = xs := by
  induction xs with
  | nil => rfl
  | cons x rest ih =>
    simp only [List.takeWhile_cons, hxs x (by simp), if_true]
    rw [ih (fun x hx' => hxs x (by simp [hx']))]

/-- Rebuilding a string from its characters is the identity. -/
theorem string_mk_data (s : String) : String.mk s.data = s := by
  cases s
  rfl

/-- The placeholder-name extraction of a rendered well-formed template is
exactly the placeholder names, in order. -/
theorem displayFieldsOf_renderTemplate (lit0 : String)
    (chunks : List (Placeholder × String))
    (hlit0 : '{' ∉ lit0.data)
    (hok : ∀ c ∈ chunks, PlaceholderOk c.1 ∧ '{' ∉ c.2.data) :
    displayFieldsOf (renderTemplate lit0 chunks) =
      chunks.map (fun c => c.1.name) := by
  have hchars : ∀ c ∈ chunks, '{' ∉ phChars c.1 ∧ '{' ∉ c.2.data := by
    intro c hc
    obtain ⟨⟨hn1, hn2, hn3, hsp⟩, hl⟩ := hok c hc
    refine ⟨?_, hl⟩
    intro hm
    rcases List.mem_append.mp hm with hm | hm
    · exact hn1 hm
    · revert hm hsp
      cases c.1.spec with
      | none => intro _ hm; simp at hm
      | some sp =>
        intro hsp hm
        rcases List.mem_cons.mp hm with hm | hm
        · cases hm
        · exact hsp.1 hm
  have hsplit := splitOnChar_renderChunks chunks lit0.data hlit0 hchars
  unfold displayFieldsOf
  rw [show (renderTemplate lit0 chunks).data = lit0.data ++ renderChunks chunks
      from rfl, hsplit]
  simp only [List.drop_succ_cons, List.drop_zero, List.map_map]
  refine List.map_congr_left ?_
  intro c hc
  obtain ⟨⟨hn1, hn2, hn3, hsp⟩, _⟩ := hok c hc
  have h1 : (phChars c.1 ++ '}' :: c.2.data).takeWhile (fun ch => ch ≠ '}') =
      phChars c.1 := by
    refine takeWhile_append_cons _ _ _ _ ?_ (by simp)
    intro x hx
    simp only [ne_eq, decide_eq_true_eq]
    intro he
    subst he
    rcases List.mem_append.mp hx with hm | hm
    · exact hn2 hm
    · revert hm hsp
      cases c.1.spec with
      | none => intro _ hm; simp at hm
      | some sp =>
        intro hsp hm
        rcases List.mem_cons.mp hm with hm | hm
        · cases hm
        · exact hsp.2 hm
  have h2 : (phChars c.1).takeWhile (fun ch => ch ≠ ':') = c.1.name.data := by
    unfold phChars
    cases hspec : c.1.spec with
    | none =>
      simp only [List.append_nil]
      refine takeWhile_all _ _ ?_
      intro x hx
      simp only [ne_eq, decide_eq_true_eq]
      intro he
      exact hn3 (he ▸ hx)
    | some sp =>
      refine takeWhile_append_cons _ _ _ _ ?_ (by simp)
      intro x hx
      simp only [ne_eq, decide_eq_true_eq]
      intro he
      exact hn3 (he ▸ hx)
  simp only [Function.comp]
  rw [h1, h2, string_mk_data]

/-- Display template and referenced fields of every successfully parsed
variant: the template is resolved from the variant's attributes and shape,
and the referenced fields are extracted from the template. -/
theorem parse_ok_display (input : VariantInput) (v : Variant)
    (h : Variant.parse input = .ok v) :
    v.ty = (match input with
      | .unit _ _ => VariantType.Unit
      | .tuple _ _ _ => .Tuple
      | .struct' _ _ _ => .Struct) ∧
    v.display = resolveDisplay input.attrs v.ty v.fields.length ∧
    v.display_fields = displayFieldsOf v.display := by
  cases input with
  | unit attrs nm =>
    rw [parse_unit_ok] at h
    cases h
    exact ⟨rfl, rfl, rfl⟩
  | tuple attrs nm raw =>
    cases hres : resolveFields nm (parse_tuple_fields raw).len
        (parse_tuple_fields raw).pairs .None [] with
    | error d =>
      rw [parse_tuple_err attrs nm raw d hres] at h
      cases h
    | ok r =>
      obtain ⟨src, flds⟩ := r
      rw [parse_tuple_ok attrs nm raw src flds hres] at h
      cases h
      exact ⟨rfl, rfl, rfl⟩
  | struct' attrs nm raw =>
    cases hres : resolveFields nm (parse_struct_fields raw).len
        (parse_struct_fields raw).pairs .None [] with
    | error d =>
      rw [parse_struct_err attrs nm raw d hres] at h
      cases h
    | ok r =>
      obtain ⟨src, flds⟩ := r
      rw [parse_struct_ok attrs nm raw src flds hres] at h
      cases h
      exact ⟨rfl, rfl, rfl⟩

/-- C1: an explicit message attribute on a Tuple variant is stored with the
positional-placeholder rewrite applied (one replace pass per field index,
preserving format specs), while Struct and Unit variants keep the explicit
template verbatim and variants without an explicit message keep the joined
doc comment; on the two-field template "\x7b0\x7d then \x7b1:?\x7d" the
stored template is "\x7bfield_0\x7d then \x7bfield_1:?\x7d" with referenced
fields `field_0`, `field_1`. -/
theorem c1_positional_rewrite :
    (∀ (attrs : List Attribute) (nm : Ident) (raw : List Field) (v : Variant)
      (a : Attribute) (s : String),
      Variant.parse (.tuple attrs nm raw) = .ok v →
      attrs.find? (fun attr => attr.name == "error") = some a →
      a.str = some s →
      v.display = rewriteTemplate v.fields.length s) ∧
    (∀ (attrs : List Attribute) (nm : Ident) (raw : List (String × Field))
      (v : Variant) (a : Attribute) (s : String),
      Variant.parse (.struct' attrs nm raw) = .ok v →
      attrs.find? (fun attr => attr.name == "error") = some a →
      a.str = some s → v.display = s) ∧
    (∀ (attrs : List Attribute) (nm : Ident) (v : Variant) (a : Attribute)
      (s : String),
      Variant.parse (.unit attrs nm) = .ok v →
      attrs.find? (fun attr => attr.name == "error") = some a →
      a.str = some s → v.display = s) ∧
    (∀ (input : VariantInput) (v : Variant),
      Variant.parse input = .ok v →
      input.attrs.find? (fun attr => attr.name == "error") = none →
      v.display = String.join (get_doc_comment input.attrs)) ∧
    (∃ v, Variant.parse (.tuple [⟨"error", some "{0} then {1:?}", 10⟩]
        ⟨"LoginError", 1⟩ [⟨[], "String"⟩, ⟨[], "u32"⟩]) = .ok v ∧
      v.display = "{field_0} then {field_1:?}" ∧
      v.display_fields = ["field_0", "field_1"]) := by
  refine ⟨?_, ?_, ?_, ?_, ?_⟩
  · intro attrs nm raw v a s h hfind hstr
    obtain ⟨hty, hdisp, _⟩ := parse_ok_display _ v h
    rw [hdisp, hty]
    simp [resolveDisplay, VariantInput.attrs, hfind, hstr]
  · intro attrs nm raw v a s h hfind hstr
    obtain ⟨hty, hdisp, _⟩ := parse_ok_display _ v h
    rw [hdisp, hty]
    simp [resolveDisplay, VariantInput.attrs, hfind, hstr]
  · intro attrs nm v a s h hfind hstr
    obtain ⟨hty, hdisp, _⟩ := parse_ok_display _ v h
    rw [hdisp, hty]
    simp [resolveDisplay, VariantInput.attrs, hfind, hstr]
  · intro input v h hfind
    obtain ⟨hty, hdisp, _⟩ := parse_ok_display _ v h
    rw [hdisp]
    simp [resolveDisplay, hfind]
  · exact ⟨_, rfl, rfl, rfl⟩

/-- Concrete parsed variant for the C1 witness. -/
def c1V : Variant :=
  ⟨⟨"LoginError", 1⟩, .Tuple, [("0", "String"), ("1", "u32")],
    "{field_0} then {field_1:?}", ["field_0", "field_1"], .None⟩

/-- C1 witness: the tuple conjunct applied to the concrete two-field variant
with the explicit template "\x7b0\x7d then \x7b1:?\x7d". -/
theorem c1_witness :
    Variant.parse (.tuple [⟨"error", some "{0} then {1:?}", 10⟩]
      ⟨"LoginError", 1⟩ [⟨[], "String"⟩, ⟨[], "u32"⟩]) = .ok c1V ∧
    c1V.display = rewriteTemplate c1V.fields.length "{0} then {1:?}" :=
  ⟨rfl,
    c1_positional_rewrite.1 [⟨"error", some "{0} then {1:?}", 10⟩]
      ⟨"LoginError", 1⟩ [⟨[], "String"⟩, ⟨[], "u32"⟩] c1V
      ⟨"error", some "{0} then {1:?}", 10⟩ "{0} then {1:?}" rfl rfl rfl⟩

/-- C8: the referenced-field list of a well-formed template is the bare
placeholder names, format specs stripped, in left-to-right order; every
parsed variant stores exactly the extraction of its final template; and the
generated formatting arm binds exactly those fields (by `field_i` position
for Tuple, by name for Struct) and passes them as the format arguments in
the same order. -/
theorem c8_display_fields :
    (∀ (lit0 : String) (chunks : List (Placeholder × String)),
      '{' ∉ lit0.data →
      (∀ c ∈ chunks, PlaceholderOk c.1 ∧ '{' ∉ c.2.data) →
      displayFieldsOf (renderTemplate lit0 chunks) =
        chunks.map (fun c => c.1.name)) ∧
    (∀ (input : VariantInput) (v : Variant),
      Variant.parse input = .ok v →
      v.display_fields = displayFieldsOf v.display) ∧
    (∀ v : Variant, v.ty = .Tuple → v.display ≠ "" →
      display_arm v = .ok (.tuple v.name.name
        ((List.range v.fields.length).map
          (fun i => v.display_fields.contains ("field_" ++ toString i)))
        v.display v.display_fields)) ∧
    (∀ v : Variant, v.ty = .Struct → v.display ≠ "" →
      display_arm v = .ok (.struct' v.name.name v.display_fields v.display
        v.display_fields)) := by
  refine ⟨?_, ?_, ?_, ?_⟩
  · intro lit0 chunks hlit0 hok
    exact displayFieldsOf_renderTemplate lit0 chunks hlit0 hok
  · intro input v h
    exact (parse_ok_display input v h).2.2
  · intro v hty hne
    simp [display_arm, hne, hty]
  · intro v hty hne
    simp [display_arm, hne, hty]

/-- Concrete parsed variant for the C8 witness. -/
def c8V : Variant :=
  ⟨⟨"L", 1⟩, .Tuple, [("0", "String"), ("1", "u32")],
    "{field_0} then {field_1:?}", ["field_0", "field_1"], .None⟩

/-- C8 witness: extraction of the rendered template `a \x7bx\x7d b
\x7by:?\x7d`, the parsed referenced fields of a concrete tuple variant, and
its generated formatting arm. -/
theorem c8_witness :
    displayFieldsOf (renderTemplate "a "
      [(⟨"x", none⟩, " b "), (⟨"y", some "?"⟩, "")]) = ["x", "y"] ∧
    c8V.display_fields = displayFieldsOf c8V.display ∧
    display_arm c8V = .ok (.tuple "L" [true, true]
      "{field_0} then {field_1:?}" ["field_0", "field_1"]) := by
  refine ⟨?_, ?_, ?_⟩
  · exact c8_display_fields.1 "a " [(⟨"x", none⟩, " b "), (⟨"y", some "?"⟩, "")]
      (by decide)
      (by
        intro c hc
        rcases List.mem_cons.mp hc with rfl | hc
        · exact ⟨⟨by decide, by decide, by decide, trivial⟩, by decide⟩
        rcases List.mem_cons.mp hc with rfl | hc
        · exact ⟨⟨by decide, by decide, by decide, by decide⟩, by decide⟩
        cases hc)
  · exact c8_display_fields.2.1
      (.tuple [⟨"error", some "{0} then {1:?}", 10⟩] ⟨"L", 1⟩
        [⟨[], "String"⟩, ⟨[], "u32"⟩]) c8V rfl
  · exact c8_display_fields.2.2.1 c8V rfl (by decide)

/-! ## OrderedMap invariants and `into_iter` characterization -/

/-- Reference function: keys in first-occurrence order. -/
def firstKeys : List String → List String
  | [] => []
  | k :: rest => k :: (firstKeys rest).filter (fun k' => k' ≠ k)

/-- Reference function: the most recent value inserted for a key. -/
def lastVal (k : String) : List (String × α) → Option α
  | [] => none
  | (k', v) :: rest =>
    match lastVal k rest with
    | some w => some w
    | none => if k' = k then some v else none

/-- An `OrderedMap` built by inserting a list of key-value pairs in order,
starting from the empty map (as `parse_struct_fields` does). -/
def OrderedMap.ofList (l : List (String × α)) : OrderedMap α :=
  l.foldl (fun acc kv => (acc.insert kv.1 kv.2).2) OrderedMap.new

/-- `hashInsert` returns the key's previous binding. -/
theorem hashInsert_fst (k : String) (v : α) (mp : List (String × α)) :
    (hashInsert k v mp).1 = mp.lookup k := by
  induction mp with
  | nil => rfl
  | cons kv rest ih =>
    obtain ⟨k', v'⟩ := kv
    by_cases h : k' = k
    · subst h
      simp [hashInsert, List.lookup]
    · simp only [hashInsert, if_neg h, List.lookup]
      rw [ih]
      have : (k == k') = false := by
        simp only [beq_eq_false_iff_ne, ne_eq]
        exact fun he => h he.symm
      simp [this]

/-- After `hashInsert`, the key is bound to the new value. -/
theorem hashInsert_lookup_self (k : String) (v : α) (mp : List (String × α)) :
    (hashInsert k v mp).2.lookup k = some v := by
  induction mp with
  | nil => simp [hashInsert, List.lookup]
  | cons kv rest ih =>
    obtain ⟨k', v'⟩ := kv
    by_cases h : k' = k
    · subst h
      simp [hashInsert, List.lookup]
    · have : (k == k') = false := by
        simp only [beq_eq_false_iff_ne, ne_eq]
        exact fun he => h he.symm
      simp only [hashInsert, if_neg h, List.lookup, this]
      simpa using ih

/-- `hashInsert` leaves other keys' bindings unchanged. -/
theorem hashInsert_lookup_ne (k k' : String) (v : α) (mp : List (String × α))
    (h : k' ≠ k) : (hashInsert k v mp).2.lookup k' = mp.lookup k' := by
  induction mp with
  | nil =>
    have : (k' == k) = false := by simpa using h
    simp [hashInsert, List.lookup, this]
  | cons kv rest ih =>
    obtain ⟨k'', v''⟩ := kv
    by_cases hk : k'' = k
    · subst hk
      have h1 : (k' == k'') = false := by simpa using h
      simp [hashInsert, List.lookup, h1]
    · simp only [hashInsert, if_neg hk, List.lookup]
      rw [ih]

/-- Inserting a fresh key appends it to the association list. -/
theorem hashInsert_fst_none (k : String) (v : α) (mp : List (String × α))
    (h : mp.lookup k = none) :
    (hashInsert k v mp).2.map Prod.fst = mp.map Prod.fst ++ [k] := by
  induction mp with
  | nil => rfl
  | cons kv rest ih =>
    obtain ⟨k', v'⟩ := kv
    by_cases hk : k' = k
    · subst hk
      simp [List.lookup] at h
    · have hb : (k == k') = false := by
        simp only [beq_eq_false_iff_ne, ne_eq]
        exact fun he => hk he.symm
      simp only [List.lookup, hb] at h
      simp only [hashInsert, if_neg hk, List.map_cons, List.cons_append]
      rw [ih h]

/-- Overwriting a present key keeps the key sequence of the association
list. -/
theorem hashInsert_fst_some (k : String) (v : α) (mp : List (String × α))
    (h : (mp.lookup k).isSome) :
    (hashInsert k v mp).2.map Prod.fst = mp.map Prod.fst := by
  induction mp with
  | nil => simp [List.lookup] at h
  | cons kv rest ih =>
    obtain ⟨k', v'⟩ := kv
    by_cases hk : k' = k
    · subst hk
      simp [hashInsert]
    · have hb : (k == k') = false := by
        simp only [beq_eq_false_iff_ne, ne_eq]
        exact fun he => hk he.symm
      simp only [List.lookup, hb] at h
      simp only [hashInsert, if_neg hk, List.map_cons]
      rw [ih h]

/-- A key is absent from the lookup exactly when it is absent from the key
sequence. -/
theorem lookup_eq_none_iff (k : String) (mp : List (String × α)) :
    mp.lookup k = none ↔ k ∉ mp.map Prod.fst := by
  induction mp with
  | nil => simp [List.lookup]
  | cons kv rest ih =>
    obtain ⟨k', v'⟩ := kv
    by_cases hk : k = k'
    · subst hk
      simp [List.lookup]
    · have hb : (k == k') = false := by simpa using hk
      simp [List.lookup, hb, ih, hk]

/-- Well-formedness of an `OrderedMap`: the recorded keys are exactly the
inner map's keys, in order, without duplicates. -/
def OrderedMap.WF (m : OrderedMap α) : Prop :=
  m.map.map Prod.fst = m.keys ∧ m.keys.Nodup

/-- `insert` preserves well-formedness. -/
theorem OrderedMap.insert_wf (m : OrderedMap α) (k : String) (v : α)
    (h : m.WF) : (m.insert k v).2.WF := by
  obtain ⟨hfst, hnd⟩ := h
  cases hlk : m.map.lookup k with
  | none =>
    have hnotin : k ∉ m.keys := hfst ▸ (lookup_eq_none_iff k m.map).mp hlk
    constructor
    · show (hashInsert k v m.map).2.map Prod.fst =
        if (hashInsert k v m.map).1.isNone then m.keys ++ [k] else m.keys
      rw [hashInsert_fst, hlk]
      simpa [hashInsert_fst_none k v m.map hlk] using hfst
    · show List.Nodup (if (hashInsert k v m.map).1.isNone then
        m.keys ++ [k] else m.keys)
      rw [hashInsert_fst, hlk]
      simpa [List.nodup_append] using ⟨hnd, hnotin⟩
  | some w =>
    constructor
    · show (hashInsert k v m.map).2.map Prod.fst =
        if (hashInsert k v m.map).1.isNone then m.keys ++ [k] else m.keys
      rw [hashInsert_fst, hlk]
      simpa [hashInsert_fst_some k v m.map (by simp [hlk])] using hfst
    · show List.Nodup (if (hashInsert k v m.map).1.isNone then
        m.keys ++ [k] else m.keys)
      rw [hashInsert_fst, hlk]
      simpa using hnd

/-- Any map built by inserting a pair list into a well-formed map is
well-formed. -/
theorem OrderedMap.foldl_insert_wf (l : List (String × α)) :
    ∀ (m : OrderedMap α), m.WF →
      (l.foldl (fun acc kv => (acc.insert kv.1 kv.2).2) m).WF := by
  induction l with
  | nil => exact fun m h => h
  | cons kv rest ih =>
    intro m h
    exact ih _ (m.insert_wf kv.1 kv.2 h)

/-- `ofList` produces a well-formed map. -/
theorem OrderedMap.ofList_wf (l : List (String × α)) : (ofList l).WF :=
  foldl_insert_wf l OrderedMap.new ⟨rfl, List.nodup_nil⟩

/-- `ofList` of a snoc is an `insert` into `ofList` of the prefix. -/
theorem OrderedMap.ofList_snoc (l : List (String × α)) (kv : String × α) :
    ofList (l ++ [kv]) = ((ofList l).insert kv.1 kv.2).2 := by
  unfold ofList
  rw [List.foldl_append]
  rfl

/-- `firstKeys` of a snoc: a repeated key is dropped, a fresh one appended. -/
theorem firstKeys_snoc (xs : List String) (x : String) :
    firstKeys (xs ++ [x]) =
      if x ∈ xs then firstKeys xs else firstKeys xs ++ [x] := by
  induction xs with
  | nil => simp [firstKeys]
  | cons y ys ih =>
    show firstKeys (y :: (ys ++ [x])) = _
    by_cases hxs : x ∈ ys
    · have hx' : x ∈ y :: ys := List.mem_cons_of_mem y hxs
      simp only [firstKeys, ih, if_pos hxs, if_pos hx']
    · by_cases hxy : x = y
      · subst hxy
        have hx' : x ∈ x :: ys := List.mem_cons_self x ys
        simp only [firstKeys, ih, if_neg hxs, if_pos hx', List.filter_append]
        simp
      · have hx' : x ∉ y :: ys := by simp [hxy, hxs]
        simp only [firstKeys, ih, if_neg hxs, if_neg hx', List.filter_append]
        simp [hxy]

/-- `firstKeys` has the same members as its input. -/
theorem mem_firstKeys (k : String) (xs : List String) :
    k ∈ firstKeys xs ↔ k ∈ xs := by
  induction xs with
  | nil => simp [firstKeys]
  | cons y ys ih =>
    simp only [firstKeys, List.mem_cons, List.mem_filter, ih]
    constructor
    · rintro (rfl | ⟨hk, _⟩)
      · exact Or.inl rfl
      · exact Or.inr hk
    · rintro (rfl | hk)
      · exact Or.inl rfl
      · by_cases hky : k = y
        · exact Or.inl hky
        · exact Or.inr ⟨hk, by simpa using hky⟩

/-- `lastVal` of a snoc: the appended pair wins for its key. -/
theorem lastVal_snoc (k : String) (l : List (String × α)) (kv : String × α) :
    lastVal k (l ++ [kv]) =
      if kv.1 = k then some kv.2 else lastVal k l := by
  induction l with
  | nil =>
    obtain ⟨k', v⟩ := kv
    simp [lastVal]
  | cons x xs ih =>
    obtain ⟨k'', v''⟩ := x
    show lastVal k ((k'', v'') :: (xs ++ [kv])) = _
    simp only [lastVal]
    rw [ih]
    by_cases hk : kv.1 = k
    · simp [hk]
    · simp only [if_neg hk]

/-- The recorded keys of `ofList` are the distinct inserted keys in
first-insertion order. -/
theorem OrderedMap.ofList_keys (l : List (String × α)) :
    (ofList l).keys = firstKeys (l.map Prod.fst) := by
  induction l using List.reverseRecOn with
  | nil => rfl
  | append_singleton l kv ih =>
    obtain ⟨hfst, _⟩ := ofList_wf (α := α) l
    rw [ofList_snoc]
    show (if (hashInsert kv.1 kv.2 (ofList l).map).1.isNone then
      (ofList l).keys ++ [kv.1] else (ofList l).keys) =
      firstKeys ((l ++ [kv]).map Prod.fst)
    rw [hashInsert_fst]
    simp only [List.map_append, List.map_cons, List.map_nil]
    rw [firstKeys_snoc]
    cases hlk : (ofList l).map.lookup kv.1 with
    | none =>
      have hni : kv.1 ∉ l.map Prod.fst := by
        have := (lookup_eq_none_iff kv.1 (ofList l).map).mp hlk
        rw [hfst, ih] at this
        exact fun hm => this ((mem_firstKeys _ _).mpr hm)
      simp [hni, ih]
    | some w =>
      have hin : kv.1 ∈ l.map Prod.fst := by
        by_contra hni
        rw [← mem_firstKeys, ← ih, ← hfst] at hni
        rw [(lookup_eq_none_iff kv.1 (ofList l).map).mpr hni] at hlk
        cases hlk
      simp [hin, ih]

/-- The binding of each key in `ofList` is its most recently inserted
value. -/
theorem OrderedMap.ofList_lookup (l : List (String × α)) (k : String) :
    (ofList l).map.lookup k = lastVal k l := by
  induction l using List.reverseRecOn with
  | nil => rfl
  | append_singleton l kv ih =>
    rw [ofList_snoc, lastVal_snoc]
    show (hashInsert kv.1 kv.2 (ofList l).map).2.lookup k = _
    by_cases hk : kv.1 = k
    · subst hk
      rw [hashInsert_lookup_self]
      simp
    · rw [hashInsert_lookup_ne kv.1 k kv.2 _ (fun he => hk he.symm), ih,
        if_neg hk]

/-- On a map whose recorded keys are exactly its association list's keys
without duplicates, `into_iter` yields the association list with every value
present. -/
theorem intoIterAux_eq_map :
    ∀ (mp : List (String × α)) (ks : List String),
      mp.map Prod.fst = ks → ks.Nodup →
      intoIterAux ks mp = mp.map (fun kv => (kv.1, some kv.2)) := by
  intro mp
  induction mp with
  | nil =>
    intro ks hks _
    cases hks
    rfl
  | cons kv rest ih =>
    intro ks hks hnd
    obtain ⟨k, v⟩ := kv
    cases hks
    simp only [List.map_cons] at hnd
    simp only [intoIterAux, List.map_cons]
    rw [show List.lookup k ((k, v) :: rest) = some v by simp [List.lookup],
      List.eraseP_cons_of_pos (by simp),
      ih _ rfl (List.nodup_cons.mp hnd).2]

/-- An association list with distinct keys is its key list paired with its
own lookups. -/
theorem assoc_map_eq_keys_map (mp : List (String × α))
    (hnd : (mp.map Prod.fst).Nodup) :
    mp.map (fun kv => (kv.1, some kv.2)) =
      (mp.map Prod.fst).map (fun k => (k, mp.lookup k)) := by
  induction mp with
  | nil => rfl
  | cons kv rest ih =>
    obtain ⟨k, v⟩ := kv
    simp only [List.map_cons] at hnd ⊢
    obtain ⟨hkni, hndr⟩ := List.nodup_cons.mp hnd
    rw [show List.lookup k ((k, v) :: rest) = some v by simp [List.lookup],
      ih hndr]
    congr 1
    refine List.map_congr_left ?_
    intro k' hk'
    have hne : (k' == k) = false := by
      refine beq_eq_false_iff_ne.mpr ?_
      intro he
      exact hkni (he ▸ hk')
    simp [List.lookup, hne]

/-- C10 core: `into_iter` of a map built from a pair list yields each
distinct key once, in first-insertion order, with its most recent value. -/
theorem OrderedMap.into_iter_ofList (l : List (String × α)) :
    (ofList l).into_iter =
      (firstKeys (l.map Prod.fst)).map (fun k => (k, lastVal k l)) := by
  obtain ⟨hfst, hnd⟩ := ofList_wf (α := α) l
  unfold OrderedMap.into_iter
  rw [intoIterAux_eq_map (ofList l).map (ofList l).keys hfst hnd,
    assoc_map_eq_keys_map (ofList l).map (by rwa [hfst]), hfst, ofList_keys]
  refine List.map_congr_left ?_
  intro k _
  rw [ofList_lookup]

/-- C10: `insert` of a fresh key returns no previous value, appends the key
once and binds it; `insert` of a present key returns the old value, replaces
the binding and neither duplicates nor moves the key; consequently
`into_iter` of a map built from a pair list yields each distinct key exactly
once, in first-insertion order, paired with its most recent value — so a
struct field list with a repeated name parses without error, keeping the
later field's data at the earlier position. -/
theorem c10_ordered_map :
    (∀ (α : Type) (m : OrderedMap α) (k : String) (v : α),
      m.map.lookup k = none →
      (m.insert k v).1 = none ∧
      (m.insert k v).2.keys = m.keys ++ [k] ∧
      (m.insert k v).2.map.lookup k = some v) ∧
    (∀ (α : Type) (m : OrderedMap α) (k : String) (v w : α),
      m.map.lookup k = some w →
      (m.insert k v).1 = some w ∧
      (m.insert k v).2.keys = m.keys ∧
      (m.insert k v).2.map.lookup k = some v) ∧
    (∀ (α : Type) (l : List (String × α)),
      (OrderedMap.ofList l).into_iter =
        (firstKeys (l.map Prod.fst)).map (fun k => (k, lastVal k l))) ∧
    (parse_struct_fields
        [("a", ⟨[], "T1"⟩), ("b", ⟨[], "T2"⟩), ("a", ⟨[], "T3"⟩)]).into_iter =
      [("a", some ⟨[], "T3"⟩), ("b", some ⟨[], "T2"⟩)] ∧
    Variant.parse (.struct' [⟨"doc", some "m", 1⟩] ⟨"V", 0⟩
        [("a", ⟨[], "T1"⟩), ("b", ⟨[], "T2"⟩), ("a", ⟨[], "T3"⟩)]) =
      .ok ⟨⟨"V", 0⟩, .Struct, [("a", "T3"), ("b", "T2")], "m", [], .None⟩ := by
  refine ⟨?_, ?_, ?_, ?_, ?_⟩
  · intro α m k v hlk
    have h1 : (m.insert k v).1 = none := by
      show (hashInsert k v m.map).1 = none
      rw [hashInsert_fst, hlk]
    refine ⟨h1, ?_, hashInsert_lookup_self k v m.map⟩
    show (if (hashInsert k v m.map).1.isNone then m.keys ++ [k] else m.keys) = _
    rw [hashInsert_fst, hlk]
    rfl
  · intro α m k v w hlk
    have h1 : (m.insert k v).1 = some w := by
      show (hashInsert k v m.map).1 = some w
      rw [hashInsert_fst, hlk]
    refine ⟨h1, ?_, hashInsert_lookup_self k v m.map⟩
    show (if (hashInsert k v m.map).1.isNone then m.keys ++ [k] else m.keys) = _
    rw [hashInsert_fst, hlk]
    rfl
  · intro α l
    exact OrderedMap.into_iter_ofList l
  · rfl
  · rfl

/-- C10 witness: a fresh insert and an overwriting insert on a concrete
one-entry map. -/
theorem c10_witness :
    ((⟨["a"], [("a", 1)]⟩ : OrderedMap Nat).insert "b" 2).1 = none ∧
    ((⟨["a"], [("a", 1)]⟩ : OrderedMap Nat).insert "b" 2).2.keys =
      ["a"] ++ ["b"] ∧
    ((⟨["a"], [("a", 1)]⟩ : OrderedMap Nat).insert "b" 2).2.map.lookup "b" =
      some 2 ∧
    ((⟨["a"], [("a", 1)]⟩ : OrderedMap Nat).insert "a" 5).1 = some 1 ∧
    ((⟨["a"], [("a", 1)]⟩ : OrderedMap Nat).insert "a" 5).2.keys = ["a"] ∧
    ((⟨["a"], [("a", 1)]⟩ : OrderedMap Nat).insert "a" 5).2.map.lookup "a" =
      some 5 := by
  obtain ⟨h1, h2, h3⟩ := c10_ordered_map.1 Nat ⟨["a"], [("a", 1)]⟩ "b" 2
    (by decide)
  obtain ⟨g1, g2, g3⟩ := c10_ordered_map.2.1 Nat ⟨["a"], [("a", 1)]⟩ "a" 5 1
    (by decide)
  exact ⟨h1, h2, h3, g1, g2, g3⟩

end Onlyerror
